import Mathlib

/-!
Verification development for the ninth-seat Workflow Run Engine
(`backend/tooling.py`, `backend/workflow_runtime.py`).

The Python runtime manipulates JSON-ish values (the payloads produced by
`json.loads`, pydantic models dumped with `model_dump`, and plain dict/list
literals).  We embed those values as the inductive `JValue` below.  Python
floats are embedded as exact decimal rationals: no arithmetic is ever
performed on them by the code under study, they are only parsed from decimal
literals, passed through, and compared for truthiness, so the decimal
rational carries exactly the information the runtime observes (IEEE rounding
of extreme literals is abstracted away).  Python `dict`s are embedded as
association lists with unique keys and insertion order preserved, which is
Python's observable dict semantics.
-/

namespace NinthSeat

/-- A Python/JSON value as handled by the workflow runtime. -/
inductive JValue where
  | null
  | bool (b : Bool)
  | int (i : Int)
  | float (q : Rat)
  | str (s : String)
  | arr (elems : List JValue)
  | obj (fields : List (String × JValue))
deriving Repr

namespace JValue

/-- Structural decidable equality for `JValue` (the derive handler does not
cover the nested `List` occurrences, so we spell it out). -/
def beq : JValue → JValue → Bool
  | .null, .null => true
  | .bool a, .bool b => a == b
  | .int a, .int b => a == b
  | .float a, .float b => a == b
  | .str a, .str b => a == b
  | .arr xs, .arr ys => beqList xs ys
  | .obj xs, .obj ys => beqFields xs ys
  | _, _ => false
where
  beqList : List JValue → List JValue → Bool
    | [], [] => true
    | x :: xs, y :: ys => beq x y && beqList xs ys
    | _, _ => false
  beqFields : List (String × JValue) → List (String × JValue) → Bool
    | [], [] => true
    | (k, x) :: xs, (l, y) :: ys => k == l && beq x y && beqFields xs ys
    | _, _ => false

mutual
theorem beq_eq : ∀ a b : JValue, beq a b = true → a = b
  | .null, .null, _ => rfl
  | .bool _, .bool _, h => by
      simp only [beq, beq_iff_eq] at h; simp [h]
  | .int _, .int _, h => by
      simp only [beq, beq_iff_eq] at h; simp [h]
  | .float _, .float _, h => by
      simp only [beq, beq_iff_eq] at h; simp [h]
  | .str _, .str _, h => by
      simp only [beq, beq_iff_eq] at h; simp [h]
  | .arr xs, .arr ys, h => by
      simp only [beq] at h
      exact congrArg JValue.arr (beqList_eq xs ys h)
  | .obj xs, .obj ys, h => by
      simp only [beq] at h
      exact congrArg JValue.obj (beqFields_eq xs ys h)

theorem beqList_eq : ∀ xs ys : List JValue, beq.beqList xs ys = true → xs = ys
  | [], [], _ => rfl
  | x :: xs, y :: ys, h => by
      simp only [beq.beqList, Bool.and_eq_true] at h
      rw [beq_eq x y h.1, beqList_eq xs ys h.2]

theorem beqFields_eq :
    ∀ xs ys : List (String × JValue), beq.beqFields xs ys = true → xs = ys
  | [], [], _ => rfl
  | (k, x) :: xs, (l, y) :: ys, h => by
      simp only [beq.beqFields, Bool.and_eq_true, beq_iff_eq] at h
      rw [h.1.1, beq_eq x y h.1.2, beqFields_eq xs ys h.2]
end

mutual
theorem beq_refl : ∀ a : JValue, beq a a = true
  | .null => rfl
  | .bool _ => by simp [beq]
  | .int _ => by simp [beq]
  | .float _ => by simp [beq]
  | .str _ => by simp [beq]
  | .arr xs => by simp only [beq]; exact beqList_refl xs
  | .obj xs => by simp only [beq]; exact beqFields_refl xs

theorem beqList_refl : ∀ xs : List JValue, beq.beqList xs xs = true
  | [] => rfl
  | x :: xs => by
      simp only [beq.beqList, Bool.and_eq_true]
      exact ⟨beq_refl x, beqList_refl xs⟩

theorem beqFields_refl : ∀ xs : List (String × JValue), beq.beqFields xs xs = true
  | [] => rfl
  | (k, x) :: xs => by
      simp only [beq.beqFields, Bool.and_eq_true, beq_iff_eq]
      exact ⟨⟨trivial, beq_refl x⟩, beqFields_refl xs⟩
end

instance : DecidableEq JValue := fun a b =>
  if h : beq a b = true then
    .isTrue (beq_eq a b h)
  else
    .isFalse (fun hab => h (hab ▸ beq_refl a))

end JValue

/-! ### Python string helpers

`str.strip()` / `.lower()` / slicing and the `int()` / `float()` constructors
are embedded below, restricted to ASCII text (the runtime only feeds it
contract keys, tool names and JSON scalars).
-/

/-- Python slicing `s[:n]` on code points. -/
def pyTake (s : String) (n : Nat) : String := String.mk (s.toList.take n)

/-- Python `str.rstrip()` (trailing whitespace removed). -/
def pyRstrip (s : String) : String :=
  String.mk ((s.toList.reverse.dropWhile Char.isWhitespace).reverse)

/-- Python `str.strip()` on a character list. -/
def pyStripChars (cs : List Char) : List Char :=
  ((cs.dropWhile Char.isWhitespace).reverse.dropWhile Char.isWhitespace).reverse

/-- Python `str.strip()`.  (Defined on the character list so that it
reduces inside the kernel, unlike `String.trim`.) -/
def pyStrip (s : String) : String := String.mk (pyStripChars s.toList)

/-- Python `str.lower()` (ASCII). -/
def pyToLower (s : String) : String := String.mk (s.toList.map Char.toLower)

/-- Python `prefix in s` check for a string prefix. -/
def pyStartsWith (s pre : String) : Bool :=
  s.toList.take pre.toList.length == pre.toList

/-- Python `s[n:]`. -/
def pyDrop (s : String) (n : Nat) : String := String.mk (s.toList.drop n)

/-- One digit group of a Python numeric literal: nonempty, digits with
single underscores strictly between digits (PEP 515). -/
def digitGroupOk (cs : List Char) : Bool :=
  (!cs.isEmpty)
    && cs.head?.all Char.isDigit
    && cs.getLast?.all Char.isDigit
    && cs.all (fun c => c.isDigit || c == '_')
    && (cs.zip cs.tail).all (fun p => !(p.1 == '_' && p.2 == '_'))

/-- Numeric value of a digit group (underscores ignored). -/
def digitGroupVal (cs : List Char) : Nat :=
  (cs.filter (· ≠ '_')).foldl (fun acc c => acc * 10 + (c.toNat - '0'.toNat)) 0

/-- Split an optional leading sign from a character list. -/
def splitSign : List Char → Bool × List Char
  | '-' :: rest => (true, rest)
  | '+' :: rest => (false, rest)
  | cs => (false, cs)

/-- Python `int(s)` for strings: strip whitespace, optional sign, digit
group with underscores; `none` models the `ValueError`. -/
def pyParseInt (s : String) : Option Int :=
  let cs := pyStripChars s.toList
  let (neg, ds) := splitSign cs
  if digitGroupOk ds then
    some (if neg then -(digitGroupVal ds : Int) else (digitGroupVal ds : Int))
  else
    none

/-- Mantissa of a Python float literal: either a plain digit group, or
`[digits] '.' [digits]` with at least one digit present.  Returns the
numerator and the number of fractional digits. -/
def pyFloatMantissa (cs : List Char) : Option (Nat × Nat) :=
  match cs.splitOn '.' with
  | [whole] => if digitGroupOk whole then some (digitGroupVal whole, 0) else none
  | [whole, frac] =>
    if whole.isEmpty && frac.isEmpty then none
    else if (whole.isEmpty || digitGroupOk whole)
        && (frac.isEmpty || digitGroupOk frac) then
      some (digitGroupVal whole * 10 ^ frac.length + digitGroupVal frac, frac.length)
    else none
  | _ => none

/-- Python `float(s)` for finite decimal literals, as an exact rational.
`inf` / `nan` spellings are omitted: the runtime only calls `float` on
strings containing a dot, which those spellings never do. -/
def pyParseFloat (s : String) : Option Rat :=
  let cs := pyStripChars s.toList
  let (neg, body) := splitSign cs
  let parsePart : List Char → Option Rat := fun mant =>
    (pyFloatMantissa mant).map fun (num, fracLen) =>
      (num : Rat) / (10 : Rat) ^ fracLen
  let withExp : Option Rat :=
    match body.splitOn 'e' with
    | [mant] =>
      match body.splitOn 'E' with
      | [m] => parsePart m
      | [m, ex] =>
        match parsePart m, splitSign ex with
        | some q, (eneg, eds) =>
          if digitGroupOk eds then
            some (q * (10 : Rat) ^ (if eneg then -(digitGroupVal eds : Int) else (digitGroupVal eds : Int)))
          else none
        | none, _ => none
      | _ => (parsePart mant).bind fun _ => none
    | [mant, ex] =>
      match parsePart mant, splitSign ex with
      | some q, (eneg, eds) =>
        if digitGroupOk eds then
          some (q * (10 : Rat) ^ (if eneg then -(digitGroupVal eds : Int) else (digitGroupVal eds : Int)))
        else none
      | none, _ => none
    | _ => none
  withExp.map (fun q => if neg then -q else q)

/-- Rendering of a float for `str()`; Python's shortest-round-trip repr is
abstracted by the rational's canonical print, which the claims never
inspect. -/
def floatRepr (q : Rat) : String := toString q

mutual
/-- Python `repr` for values nested inside containers (quotes around
strings; escape sequences abstracted away). -/
def pyRepr : JValue → String
  | .null => "None"
  | .bool b => if b then "True" else "False"
  | .int i => toString i
  | .float q => floatRepr q
  | .str s => "'" ++ s ++ "'"
  | .arr xs => "[" ++ String.intercalate ", " (pyReprList xs) ++ "]"
  | .obj kvs => "\x7b" ++ String.intercalate ", " (pyReprFields kvs) ++ "\x7d"

/-- `repr` of each list element. -/
def pyReprList : List JValue → List String
  | [] => []
  | x :: xs => pyRepr x :: pyReprList xs

/-- `repr` of each dict entry rendered as `'key': value`. -/
def pyReprFields : List (String × JValue) → List String
  | [] => []
  | (k, v) :: kvs => ("'" ++ k ++ "': " ++ pyRepr v) :: pyReprFields kvs
end

/-- Python `str(value)` at top level (`str` of a string is itself). -/
def pyStr : JValue → String
  | .str s => s
  | v => pyRepr v

/-! ### `_coerce_handoff_value` (workflow_runtime.py lines 1688-1728) -/

/-- The `field_type == "string"` branch: pass strings through, otherwise
apply `str(value)`. -/
def coerceStringBranch : JValue → JValue
  | .str s => .str s
  | v => .str (pyStr v)

/-- The `field_type == "number"` branch: bools to 1/0, numeric
pass-through, strings parsed as int (no dot) or float (with dot),
everything else (and parse failures) to null. -/
def coerceNumberBranch : JValue → JValue
  | .bool b => .int (if b then 1 else 0)
  | .int i => .int i
  | .float q => .float q
  | .str s =>
    if s.toList.contains '.' then
      match pyParseFloat s with
      | some q => .float q
      | none => .null
    else
      match pyParseInt s with
      | some i => .int i
      | none => .null
  | _ => .null

/-- The `field_type == "boolean"` branch: bool pass-through, numeric
truthiness, the case-insensitive word lists for strings, null otherwise. -/
def coerceBooleanBranch : JValue → JValue
  | .bool b => .bool b
  | .int i => .bool (decide (i ≠ 0))
  | .float q => .bool (decide (q ≠ 0))
  | .str s =>
    let normalized := pyToLower (pyStrip s)
    if normalized ∈ ["true", "1", "yes", "y"] then .bool true
    else if normalized ∈ ["false", "0", "no", "n"] then .bool false
    else .null
  | _ => .null

/-- The `field_type == "array"` branch: wrap non-lists in a singleton. -/
def coerceArrayBranch : JValue → JValue
  | .arr xs => .arr xs
  | v => .arr [v]

/-- The `field_type == "object"` branch: wrap non-mappings as
a `value` entry. -/
def coerceObjectBranch : JValue → JValue
  | .obj kvs => .obj kvs
  | v => .obj [("value", v)]

/-- Embedding of `_coerce_handoff_value`: the `None` guard comes first in
the source, then dispatch on the declared field type (deep copies are
identities on immutable values). -/
def coerceHandoffValue (value : JValue) (fieldType : String) : JValue :=
  if value = .null then .null
  else if fieldType = "any" ∨ fieldType = "json" then value
  else if fieldType = "string" then coerceStringBranch value
  else if fieldType = "number" then coerceNumberBranch value
  else if fieldType = "boolean" then coerceBooleanBranch value
  else if fieldType = "array" then coerceArrayBranch value
  else if fieldType = "object" then coerceObjectBranch value
  else value

/-- Modelled from the spec: the coercion rules of §4.4 step 3 as amended —
a null resolved value maps to null for every declared type; otherwise the
per-type rules apply (string pass-through / `str`, the numeric rules, the
boolean rules, array wrapping, object wrapping, any/json pass-through).
Organized type-first, the way the spec lists the rules. -/
def coerceSpecAmended (value : JValue) (fieldType : String) : JValue :=
  if fieldType = "string" then
    if value = .null then .null else coerceStringBranch value
  else if fieldType = "number" then
    if value = .null then .null else coerceNumberBranch value
  else if fieldType = "boolean" then
    if value = .null then .null else coerceBooleanBranch value
  else if fieldType = "array" then
    if value = .null then .null else coerceArrayBranch value
  else if fieldType = "object" then
    if value = .null then .null else coerceObjectBranch value
  else
    value

/-! ### `_json_path_get` (workflow_runtime.py lines 1660-1685) -/

/-- Path segments: `path.split(".")` keeping only nonempty segments. -/
def splitPathSegs (path : String) : List String :=
  ((path.toList.splitOn '.').map String.mk).filter (· ≠ "")

/-- Segment-wise navigation of `_json_path_get`: dict lookup for objects,
integer indexing (via Python `int`) for lists, failure elsewhere.  Returns
the `(found, value)` pair; a missing path yields `(false, null)` mirroring
the Python `(False, None)`. -/
def jsonPathGetSegs : JValue → List String → Bool × JValue
  | cur, [] => (true, cur)
  | cur, part :: rest =>
    match cur with
    | .obj kvs =>
      match kvs.lookup part with
      | some v => jsonPathGetSegs v rest
      | none => (false, .null)
    | .arr xs =>
      match pyParseInt part with
      | some i =>
        if h : 0 ≤ i ∧ i.toNat < xs.length then
          jsonPathGetSegs (xs.get ⟨i.toNat, h.2⟩) rest
        else (false, .null)
      | none => (false, .null)
    | _ => (false, .null)

/-- Embedding of `_json_path_get`: trims the path, treats `.`/`$`/`output`
as the root, strips one `output.` prefix, then navigates segment-wise. -/
def jsonPathGet (data : JValue) (sourcePath : String) : Bool × JValue :=
  let path := pyStrip sourcePath
  if path = "" then (false, .null)
  else if path = "." ∨ path = "$" ∨ path = "output" then (true, data)
  else
    let path := if pyStartsWith path "output." then pyDrop path 7 else path
    jsonPathGetSegs data (splitPathSegs path)

/-! ### Handoff contracts (workflow_runtime.py lines 1585-1657)

Edges reaching `_normalize_handoff_contract` are `RuntimeEdge.model_dump()`
dictionaries, so `handoffContract` is either absent or a dictionary with
pydantic-typed entries (`targetKey`/`sourcePath`/`type`/`description`
strings, `required` bool, `fields` a list).  The defensive `str(...)` casts
in the source are therefore identity and the embedding uses the typed
shapes directly. -/

/-- One handoff contract field (`RuntimeHandoffField`). -/
structure HandoffField where
  targetKey : String
  sourcePath : String
  type : String
  required : Bool
  description : String
deriving DecidableEq, Repr

/-- A handoff contract (`RuntimeHandoffContract`). -/
structure HandoffContract where
  packetType : String
  fields : List HandoffField
deriving DecidableEq, Repr

/-- A workflow edge (`RuntimeEdge`), restricted to the parts the handoff
broker reads. -/
structure RuntimeEdgeModel where
  source : String
  target : String
  handoff : String
  handoffContract : Option HandoffContract
deriving DecidableEq, Repr

/-- Fixpoint of `safe.replace("__", "_")`: collapse each run of
underscores to a single one. -/
def collapseUnderscoreRuns (cs : List Char) : List Char :=
  cs.foldr (fun c acc => if c == '_' && acc.head? == some '_' then acc else c :: acc) []

/-- Python `.strip("_")`. -/
def stripUnderscores (cs : List Char) : List Char :=
  ((cs.dropWhile (· == '_')).reverse.dropWhile (· == '_')).reverse

/-- Embedding of `_slugify_runtime`: lowercase alphanumerics, everything
else to `_`, collapse doubled underscores, strip edge underscores, fall
back when empty. -/
def slugifyRuntime (value fallback : String) : String :=
  let safe := value.toList.map fun ch => if ch.isAlphanum then ch.toLower else '_'
  let safe := stripUnderscores (collapseUnderscoreRuns safe)
  if safe.isEmpty then fallback else String.mk safe

/-- Embedding of `_default_handoff_contract`. -/
def defaultHandoffContract (edge : RuntimeEdgeModel) : HandoffContract :=
  { packetType :=
      slugifyRuntime (if edge.handoff = "" then "handoff_packet" else edge.handoff)
        "handoff_packet",
    fields :=
      [⟨"summary", "summary", "string", true,
          "Primary summary from the source agent output."⟩,
        ⟨"details", "details", "object", false,
          "Structured source agent details for downstream use."⟩,
        ⟨"workspaceRefs", "data.workspaceRefs", "array", false,
          "Shared workspace file references created/used by the source agent."⟩] }

/-- The recognized field types of `_normalize_handoff_contract`. -/
def allowedFieldTypes : List String :=
  ["string", "number", "boolean", "array", "object", "json", "any"]

/-- One iteration of the field-normalization loop: skip fields whose
trimmed target key or source path is empty, normalize the type, clamp
lengths. -/
def normalizeField (item : HandoffField) : Option HandoffField :=
  let tk := pyStrip item.targetKey
  let sp := pyStrip item.sourcePath
  if tk = "" ∨ sp = "" then none
  else
    let ft0 := if item.type = "" then "any" else item.type
    let ft1 := pyToLower (pyStrip ft0)
    let ft2 := if ft1 = "" then "any" else ft1
    let ft := if ft2 ∈ allowedFieldTypes then ft2 else "any"
    some { targetKey := pyTake tk 80, sourcePath := pyTake sp 160, type := ft,
           required := item.required, description := pyTake (pyStrip item.description) 240 }

/-- Embedding of `_normalize_handoff_contract`. -/
def normalizeHandoffContract (edge : RuntimeEdgeModel) : HandoffContract :=
  let dc := defaultHandoffContract edge
  match edge.handoffContract with
  | none => dc
  | some raw =>
    let rawPacketType := pyStrip raw.packetType
    let packetType := slugifyRuntime rawPacketType dc.packetType
    let normalizedFields := (raw.fields.take 20).filterMap normalizeField
    { packetType := pyTake packetType 80,
      fields := if normalizedFields.isEmpty then dc.fields else normalizedFields }

/-! ### Handoff packet payload (workflow_runtime.py lines 1731-1784)

The packet's `id` and `generatedAt` come from `uuid`/wall-clock and are
omitted; `payload`, `missingRequiredFields` and the per-field resolution
report are modelled exactly. -/

/-- Python dict membership on the association-list model. -/
def pyDictContains (kvs : List (String × JValue)) (k : String) : Bool :=
  kvs.any (·.1 == k)

/-- Python `d[k] = v`: overwrite in place when the key exists, else append
in insertion order. -/
def pyDictInsert (kvs : List (String × JValue)) (k : String) (v : JValue) :
    List (String × JValue) :=
  if pyDictContains kvs k then
    kvs.map fun p => if p.1 == k then (k, v) else p
  else kvs ++ [(k, v)]

/-- Entry of the packet's `schema.fields` resolution report. -/
structure PacketFieldResult where
  targetKey : String
  sourcePath : String
  type : String
  required : Bool
  resolved : Bool
  description : String
deriving DecidableEq, Repr

/-- Accumulator of the `_build_handoff_packet` field loop. -/
structure HandoffPayloadResult where
  payload : List (String × JValue)
  missingRequiredFields : List String
  fieldResults : List PacketFieldResult
deriving DecidableEq, Repr

/-- One iteration of the `for field in contract["fields"]` loop. -/
def processHandoffField (sourceOutput : JValue) (acc : HandoffPayloadResult)
    (field : HandoffField) : HandoffPayloadResult :=
  let resolved := jsonPathGet sourceOutput field.sourcePath
  let found := resolved.1
  let missing :=
    if !found && field.required then
      acc.missingRequiredFields ++ [field.targetKey]
    else acc.missingRequiredFields
  let coerced :=
    coerceHandoffValue (if found then resolved.2 else .null)
      (if field.type = "" then "any" else field.type)
  let payload :=
    if field.targetKey ≠ "" then pyDictInsert acc.payload field.targetKey coerced
    else acc.payload
  { payload := payload,
    missingRequiredFields := missing,
    fieldResults := acc.fieldResults ++
      [⟨field.targetKey, field.sourcePath,
          (if field.type = "" then "any" else field.type), field.required,
          found, field.description⟩] }

/-- Embedding of the packet-construction core of `_build_handoff_packet`:
the normalized contract together with the payload accumulated over its
fields. -/
def buildHandoffPacketCore (edge : RuntimeEdgeModel) (sourceOutput : JValue) :
    HandoffContract × HandoffPayloadResult :=
  let contract := normalizeHandoffContract edge
  (contract, contract.fields.foldl (processHandoffField sourceOutput) ⟨[], [], []⟩)


/-! ### Tool registry (tooling.py)

`run_tool(tool_name, args=None)` validates the args with pydantic and
dispatches exactly two tools; any other name raises
`KeyError(f"Unknown tool: ...")`.  The network call of `web_search` and the
subprocess of `sandbox_exec` are environment effects and enter the model as
outcome parameters. -/

/-- `_truncate_text`: cut at `max_chars` and report whether a cut
happened (no ellipsis here, unlike `truncate_for_runtime`). -/
def truncateText (value : String) (maxChars : Nat) : String × Bool :=
  if value.length ≤ maxChars then (value, false)
  else (pyTake value maxChars, true)

/-- Python `s.replace(a, b)` for single characters. -/
def pyReplaceChar (s : String) (a b : Char) : String :=
  String.mk (s.toList.map fun c => if c == a then b else c)

/-- Validity check of `_safe_relative_path`: strip, backslashes to
slashes, reject empty or absolute paths, then reject any surviving
`""`/`"."`/`".."` part.  `pathlib` collapses empty and `.` segments before
`parts` is read, which the `filter` mirrors. -/
def safeRelativePathOk (rawPath : String) : Bool :=
  let normalized := pyReplaceChar (pyStrip rawPath) '\\' '/'
  if normalized = "" then false
  else if pyStartsWith normalized "/" then false
  else
    let parts := ((normalized.toList.splitOn '/').map String.mk).filter
      (fun p => !(p == "" || p == "."))
    !(parts.any fun p => p == "" || p == "." || p == "..")

/-- `SandboxExecArgs`, restricted to the fields the dispatch path reads
(the timeout and memory limits parameterize the subprocess, which is an
environment effect here). -/
structure SandboxExecArgs where
  language : String
  code : String
  stdin : String
  maxOutputChars : Nat
  files : List (String × String)
deriving DecidableEq, Repr

/-- Outcome of the `subprocess.run` call, supplied by the environment:
normal completion with a return code, or `TimeoutExpired` carrying the
partial captured output. -/
inductive SubprocessOutcome where
  | completed (stdout stderr : String) (returnCode : Int)
  | timedOut (stdout stderr : String)
deriving DecidableEq, Repr

/-- The result dictionary of `_run_sandbox_exec` (fields derived from the
filesystem — `artifacts` — and the wall clock — `duration_ms` — omitted). -/
structure SandboxExecResult where
  language : String
  timedOut : Bool
  returnCode : Option Int
  stdout : String
  stderr : String
  stdoutTruncated : Bool
  stderrTruncated : Bool
deriving DecidableEq, Repr

/-- Embedding of `_run_sandbox_exec`: argument validation raises
`ValueError` (modelled as `.error`); then both the completion and the
timeout branch return the result dictionary normally, with `timed_out`
and `return_code` reflecting the outcome and outputs truncated to
`max_output_chars`. -/
def runSandboxExec (args : SandboxExecArgs) (outcome : SubprocessOutcome) :
    Except String SandboxExecResult :=
  if args.files.length > 20 then .error "Too many files. Maximum is 20."
  else if args.files.any (fun p => p.1.length > 200) then
    .error "File path is too long"
  else if args.files.any (fun p => p.2.length > 200000) then
    .error "File content too large"
  else if args.files.any (fun p => !safeRelativePathOk p.1) then
    .error "Unsafe relative path"
  else
    let raw := match outcome with
      | .completed o e r => (false, o, e, some r)
      | .timedOut o e => (true, o, e, none)
    let stdoutT := truncateText raw.2.1 args.maxOutputChars
    let stderrT := truncateText raw.2.2.1 args.maxOutputChars
    .ok { language := args.language, timedOut := raw.1,
          returnCode := raw.2.2.2, stdout := stdoutT.1, stderr := stderrT.1,
          stdoutTruncated := stdoutT.2, stderrTruncated := stderrT.2 }

/-- One entry of the `list_tools()` catalog (schemas and limitation texts
elided down to the name and description actually dispatched on). -/
structure ToolCatalogEntry where
  name : String
  description : String
deriving DecidableEq, Repr

/-- Embedding of `list_tools()`: the catalog holds exactly `web_search`
and `sandbox_exec`. -/
def listTools : List ToolCatalogEntry :=
  [⟨"web_search",
      "Search the public web and return top links/snippets (DuckDuckGo Lite parser)."⟩,
    ⟨"sandbox_exec",
      "Run Python or Bash in a temporary directory with timeout and basic resource limits."⟩]

/-- The `tool, ok, duration_ms, result` response shape of `run_tool`
(`duration_ms` is wall clock and omitted). -/
structure ToolResponse (α : Type) where
  tool : String
  ok : Bool
  result : α
deriving DecidableEq, Repr

/-- Embedding of `run_tool(tool_name, args)`: two-way dispatch with the
tool bodies passed in as effectful handlers; every other tool name raises
`KeyError(f"Unknown tool: ...")`. -/
def runTool {α : Type} (toolName : String)
    (webSearchRun : Unit → Except String α)
    (sandboxRun : Unit → Except String α) :
    Except String (ToolResponse α) :=
  if toolName = "web_search" then
    (webSearchRun ()).map fun r => ⟨toolName, true, r⟩
  else if toolName = "sandbox_exec" then
    (sandboxRun ()).map fun r => ⟨toolName, true, r⟩
  else .error ("Unknown tool: " ++ toolName)

/-! ### Run lifecycle state machine (workflow_runtime.py)

The run record's lifecycle fields are embedded below; timestamps are
abstract instants (`Nat`) and `_compute_duration_ms` is their difference.
Log entries carry their title and category; the free-text messages and
payloads do not participate in any claim.  Every mutation of the record in
the source happens under the registry lock, so the concurrent system is a
sequence of atomic steps, captured by the `SchedStep` relation further
down. -/

/-- Run and node-run statuses. -/
inductive RunStatus where
  | queued
  | running
  | success
  | failed
  | cancelled
  | awaitingInput
deriving DecidableEq, Repr

/-- The terminal statuses `{"success", "failed", "cancelled"}`. -/
def terminalStatuses : List RunStatus := [.success, .failed, .cancelled]

/-- The titles of every `_append_log` call site in the runtime.
`agentStep` carries the turn number of `f"Agent step {n}"`;
`agentEventDefault` is the `"Agent event"` fallback used when a trace
event has no title. -/
inductive LogTitle where
  | runStarted
  | runWorkspaceReady
  | agentRunning
  | agentInputsPrepared
  | handoffEmitted
  | workflowOutputsFinalized
  | runFailed
  | cancellationRequested
  | runCancelled
  | agentRuntimeInitialized
  | agentStep (n : Nat)
  | invalidToolRequest
  | circuitBreakerTriggered
  | repetitionWarningTrace
  | toolCallRequested
  | toolCallCompleted
  | toolCallFailed
  | deliverableContractIncomplete
  | agentOutputProduced
  | workspaceReferencesRecorded
  | agentEventDefault
deriving DecidableEq, Repr

/-- Titles a node-work step can append: the per-node lifecycle/input
logs of `_execute_run` plus every trace-event title `_build_real_node_output`
can produce (directly or through the live-log callback). -/
def LogTitle.isWorkerTitle : LogTitle → Bool
  | .agentRunning | .agentInputsPrepared | .handoffEmitted
  | .agentRuntimeInitialized | .agentStep _ | .invalidToolRequest
  | .circuitBreakerTriggered | .repetitionWarningTrace | .toolCallRequested
  | .toolCallCompleted | .toolCallFailed | .deliverableContractIncomplete
  | .agentOutputProduced | .workspaceReferencesRecorded
  | .agentEventDefault => true
  | _ => false

/-- One event appended by `_append_log` (id, seq, timestamp, message and
payload elided — no claim below reads them). -/
structure LogEntry where
  title : LogTitle
  category : String
deriving DecidableEq, Repr

/-- The lifecycle fields of one entry of `run["nodeRuns"]`. -/
structure NodeRunState where
  status : RunStatus
  startedAt : Option Nat
  finishedAt : Option Nat
  durationMs : Option Int
deriving DecidableEq, Repr

/-- The lifecycle fields of a run record. -/
structure RunState where
  status : RunStatus
  startedAt : Option Nat
  finishedAt : Option Nat
  durationMs : Option Int
  cancelRequested : Bool
  error : Option String
  activeNode : Option String
  logs : List LogEntry
  nodeRuns : List NodeRunState
deriving DecidableEq, Repr

/-- `_compute_duration_ms` over abstract instants. -/
def computeDurationMs : Option Nat → Option Nat → Option Int
  | some a, some b => some ((b : Int) - (a : Int))
  | _, _ => none

/-- `_append_log` (the per-node copy is part of the elided node logs). -/
def appendLog (r : RunState) (category : String) (title : LogTitle) : RunState :=
  { r with logs := r.logs ++ [⟨title, category⟩] }

/-- The initial run record built by `_build_run_from_request`. -/
def mkInitialRunState (numNodes : Nat) : RunState :=
  { status := .queued, startedAt := none, finishedAt := none,
    durationMs := none, cancelRequested := false, error := none,
    activeNode := none, logs := [],
    nodeRuns := List.replicate numNodes ⟨.queued, none, none, none⟩ }

/-- Embedding of `_mark_cancelled` (lines 1803-1822): keep an already
terminal status, otherwise become `cancelled`; backfill `finishedAt`;
cancel every queued/running node run with backfilled stamps; recompute the
run duration; append the `control / Run cancelled` log. -/
def markCancelled (now : Nat) (r : RunState) : RunState :=
  let status' := if r.status ∈ terminalStatuses then r.status else .cancelled
  let finishedAt' := if r.finishedAt = none then some now else r.finishedAt
  let nodeRuns' := r.nodeRuns.map fun nr =>
    if nr.status = .queued ∨ nr.status = .running then
      let fin := if nr.finishedAt = none then some now else nr.finishedAt
      { nr with
        status := .cancelled
        finishedAt := fin
        durationMs := computeDurationMs nr.startedAt fin }
    else nr
  let r' : RunState :=
    { r with
      status := status'
      finishedAt := finishedAt'
      activeNode := none
      nodeRuns := nodeRuns' }
  appendLog { r' with durationMs := computeDurationMs r'.startedAt r'.finishedAt }
    "control" .runCancelled

/-- Embedding of the head of `_finalize_run_success` (lines 1826-1830):
`status`, `finishedAt`, `activeNodeId` and `durationMs` are stamped
*before* `_persist_run_deliverables` (line 1927) performs any file I/O,
so this state is observable on its own and is the state the exception
handler sees when persisting raises. -/
def stampRunSuccess (now : Nat) (r : RunState) : RunState :=
  let r' : RunState :=
    { r with status := .success, finishedAt := some now, activeNode := none }
  { r' with durationMs := computeDurationMs r'.startedAt r'.finishedAt }

/-- Embedding of a completed `_finalize_run_success` (lines 1825-1951):
the stamped run plus the `output / Workflow outputs finalized` log that
is appended only after `_persist_run_deliverables` returned (the
deliverable building between them is pure data). -/
def finalizeRunSuccess (now : Nat) (r : RunState) : RunState :=
  appendLog (stampRunSuccess now r) "output" .workflowOutputsFinalized

/-- The first `running` node run is marked failed with backfilled stamps
(the `for ... break` loop of the exception handler). -/
def markFirstRunningFailed (now : Nat) : List NodeRunState → List NodeRunState
  | [] => []
  | nr :: rest =>
    if nr.status = .running then
      { nr with
        status := .failed
        finishedAt := some now
        durationMs := computeDurationMs nr.startedAt (some now) } :: rest
    else nr :: markFirstRunningFailed now rest

/-- Embedding of the `except Exception` handler of `_execute_run`
(lines 2244-2269). -/
def failRun (now : Nat) (err : String) (r : RunState) : RunState :=
  let r' : RunState :=
    { r with
      status := .failed
      activeNode := none
      error := some err
      finishedAt := some now
      durationMs := computeDurationMs r.startedAt (some now)
      nodeRuns := markFirstRunningFailed now r.nodeRuns }
  appendLog r' "error" .runFailed

/-- Embedding of the admission block of `_execute_run` (lines 1954-1993):
a run that is not `queued` is left untouched; otherwise it transitions to
`running` and the start-of-run logs are appended (`create_workflow_run`
always prepares a workspace, so the workspace-ready log is appended
unconditionally). -/
def admitRun (now : Nat) (r : RunState) : RunState :=
  if r.status ≠ .queued then r
  else
    appendLog
      (appendLog { r with status := .running, startedAt := some now }
        "lifecycle" .runStarted)
      "input" .runWorkspaceReady

/-- Embedding of `cancel_workflow_run` (lines 2319-2333): terminal runs
are returned unchanged; otherwise the `cancelRequested` flag is set and a
`control / Cancellation requested` log appended. -/
def cancelWorkflowRun (r : RunState) : RunState :=
  if r.status ∈ terminalStatuses then r
  else appendLog { r with cancelRequested := true } "control" .cancellationRequested

/-- The atomic mutations of one run record, each corresponding to one
lock-protected block (or block segment up to a file-I/O call) of the
source.  `observeCancel`, `nodeWork`, `stampSuccess` and `fail` carry the
control-flow fact that the worker body executes only between the admit
transition and the first terminalization (every such block in
`_execute_run` runs after `status` was set to `running` and returns
immediately after any terminalization).  `nodeWork` covers the per-node
blocks: they append logs drawn from the worker titles and update node-run
states and the active node, but never touch the run-level `status`,
`finishedAt`, `durationMs` or `cancelRequested`.  Success finalization is
two steps, mirroring the source's ordering: `stampSuccess` stamps the
terminal fields (lines 1826-1830); then either `_persist_run_deliverables`
returns and `persistOutputs` appends the outputs-finalized log (line
1940), or it raises and the `except Exception` handler of `_execute_run`
(lines 2244-2269), which has no status guard, runs as `persistFail` on the
already success-stamped run. -/
inductive SchedStep : RunState → RunState → Prop where
  | admitQueued (now : Nat) (r : RunState) : SchedStep r (admitRun now r)
  | extCancel (r : RunState) : SchedStep r (cancelWorkflowRun r)
  | observeCancel (now : Nat) (r : RunState) (hrun : r.status = .running)
      (hreq : r.cancelRequested = true) : SchedStep r (markCancelled now r)
  | nodeWork (r : RunState) (entries : List LogEntry)
      (nodeRuns' : List NodeRunState) (active' : Option String)
      (hrun : r.status = .running)
      (htitles : ∀ e ∈ entries, e.title.isWorkerTitle = true) :
      SchedStep r
        { r with
          logs := r.logs ++ entries
          nodeRuns := nodeRuns'
          activeNode := active' }
  | stampSuccess (now : Nat) (r : RunState) (hrun : r.status = .running)
      (hnc : r.cancelRequested = false) : SchedStep r (stampRunSuccess now r)
  | persistOutputs (r : RunState) (hsucc : r.status = .success) :
      SchedStep r (appendLog r "output" .workflowOutputsFinalized)
  | persistFail (now : Nat) (err : String) (r : RunState)
      (hsucc : r.status = .success) : SchedStep r (failRun now err r)
  | fail (now : Nat) (err : String) (r : RunState)
      (hrun : r.status = .running) : SchedStep r (failRun now err r)

/-- Finitely many scheduler/registry steps. -/
def SchedReachable : RunState → RunState → Prop :=
  Relation.ReflTransGen SchedStep

/-- Number of `control / Run cancelled` log entries. -/
def countRunCancelled (r : RunState) : Nat :=
  (r.logs.filter fun e => e.title == LogTitle.runCancelled).length

/-! ### Agent decision invocation (workflow_runtime.py lines 232-309)

The two client paths of `_invoke_runtime_agent_decision`: the OpenAI SDK
path (preferred, single call, no retry) and the `ChatOpenAI` fallback path
(two attempts, the second carrying a corrective message).  The concrete
LLM is an environment effect, passed in as a function from the message
list to the raw reply text; `interpret` abstracts
`_parse_runtime_json_object_with_context` plus
`RuntimeAgentDecision.model_validate`, either of which may raise. -/

/-- A chat message (role, content). -/
structure ChatMsg where
  role : String
  content : String
deriving DecidableEq, Repr

/-- `truncate_for_runtime`: identity up to `max_chars`, else cut to
`max_chars - 1` code points, right-stripped, with `…` appended. -/
def truncateForRuntime (text : String) (maxChars : Nat) : String :=
  if text.length ≤ maxChars then text
  else pyRstrip (pyTake text (maxChars - 1)) ++ "…"

/-- The corrective retry message of the fallback path, quoting the
previous reply truncated to 4000 characters. -/
def correctiveRetryMsg (lastRawText : String) : ChatMsg :=
  ⟨"human",
    "Your previous response was invalid JSON. Return ONLY corrected JSON. "
      ++ "Do not add commentary or markdown fences.\n\nPrevious response:\n"
      ++ truncateForRuntime lastRawText 4000⟩

/-- The schema suffix both paths append to their prompt text. -/
def schemaSuffix (schemaText : String) : String :=
  "\n\nReturn a JSON object matching this schema (fields may be empty when unused):\n"
    ++ schemaText

/-- Messages of the SDK path (schema appended to the system prompt). -/
def sdkDecisionMsgs (systemPrompt userText schemaText : String) : List ChatMsg :=
  [⟨"system", systemPrompt ++ schemaSuffix schemaText⟩, ⟨"user", userText⟩]

/-- Base messages of the fallback path (schema appended to the human
message). -/
def baseDecisionMsgs (systemPrompt userText schemaText : String) : List ChatMsg :=
  [⟨"system", systemPrompt⟩, ⟨"human", userText ++ schemaSuffix schemaText⟩]

/-- Embedding of `_invoke_runtime_agent_decision`: returns the decision or
the propagated `RuntimeError`, together with the message lists actually
sent (one entry per LLM call). -/
def invokeRuntimeAgentDecision {δ : Type}
    (openAIAvailable chatOpenAIAvailable : Bool)
    (llm : List ChatMsg → String)
    (interpret : String → Except String δ)
    (systemPrompt userText schemaText : String) :
    Except String δ × List (List ChatMsg) :=
  if openAIAvailable then
    let msgs := sdkDecisionMsgs systemPrompt userText schemaText
    (interpret (llm msgs), [msgs])
  else if chatOpenAIAvailable then
    let base := baseDecisionMsgs systemPrompt userText schemaText
    let raw1 := llm base
    match interpret raw1 with
    | .ok d => (.ok d, [base])
    | .error _ =>
      let retry := base ++ [correctiveRetryMsg raw1]
      let raw2 := llm retry
      match interpret raw2 with
      | .ok d => (.ok d, [base, retry])
      | .error e2 => (.error e2, [base, retry])
  else
    (.error "Workflow runtime requires openai SDK or langchain-openai", [])

/-! ### Agent decision loop (workflow_runtime.py lines 977-1372)

The per-turn loop of `_build_real_node_output`.  Each turn's
`_invoke_runtime_agent_decision` outcome enters the model through
`decide : Nat → Except String LoopDecision` (an `.error` is an escaping
`RuntimeError`), and each `_run_runtime_tool` call through
`exec` (an `.error` is a caught tool exception).  The prompt payloads and
trace events do not steer the control flow and are elided; `step_history`
is kept as the tagged `HistEntry` list. -/

/-- A parsed decision as the loop branches on it: a tool request (reduced
to the optional tool name — the `args`/`reason` do not steer control
flow), or a final reply whose `missingBundles` lists the required
code-bundle deliverables `_extract_code_bundle_files` found missing
(empty when sink validation passes or does not apply). -/
inductive LoopDecision where
  | tool (request : Option String)
  | final (missingBundles : List String)
deriving DecidableEq, Repr

/-- `step_history` entries (prose reasons elided; the `action` tag, the
1-based turn number, and the tool name are kept). -/
inductive HistEntry where
  | toolResult (turn : Nat) (tool : String)
  | toolError (turn : Nat) (tool : String)
  | invalidToolRequest (turn : Nat)
  | repetitionWarning (turn : Nat) (tool : String)
  | circuitBreaker (turn : Nat) (tool : String)
  | validationRetry (turn : Nat)
deriving DecidableEq, Repr

/-- The 1-based turn number of a history entry. -/
def HistEntry.turn : HistEntry → Nat
  | .toolResult t _ => t
  | .toolError t _ => t
  | .invalidToolRequest t => t
  | .repetitionWarning t _ => t
  | .circuitBreaker t _ => t
  | .validationRetry t => t

/-- The `RuntimeError`s the loop can raise. -/
inductive LoopErr where
  | decisionRaised (msg : String)
  | missingBundles
  | maxTurnsExceeded
deriving DecidableEq, Repr

/-- Loop state.  `_consecutive_tool_counts` is wholesale reset to
a fresh single-entry dict whenever the tool name changes and incremented on repeats, so
only the last tool's entry is ever read; it is embedded as the
`(lastTool, count)` pair. -/
structure LoopState where
  lastTool : Option String
  count : Nat
  history : List HistEntry
  executed : List (Nat × String)
deriving DecidableEq, Repr

instance {ε α : Type} [DecidableEq ε] [DecidableEq α] :
    DecidableEq (Except ε α)
  | .ok a, .ok b =>
    if h : a = b then .isTrue (h ▸ rfl) else .isFalse (fun hc => h (Except.ok.inj hc))
  | .error a, .error b =>
    if h : a = b then .isTrue (h ▸ rfl) else .isFalse (fun hc => h (Except.error.inj hc))
  | .ok _, .error _ => .isFalse (fun hc => Except.noConfusion hc)
  | .error _, .ok _ => .isFalse (fun hc => Except.noConfusion hc)

/-- Loop outcome: `.ok` carries the number of turns used (`stepCount`);
`executed` records every `_run_runtime_tool` invocation, successful or
not. -/
structure LoopOut where
  result : Except LoopErr Nat
  history : List HistEntry
  executed : List (Nat × String)
deriving DecidableEq, Repr

/-- One iteration of `for turn_index in range(max_turns)`; `turn` is the
0-based index.  `.inl` continues with the updated state, `.inr` leaves
the loop. -/
def loopTurn (decide : Nat → Except String LoopDecision)
    (exec : Nat → String → Except String Unit)
    (sinkRequiresBundles : Bool) (maxTurns : Nat)
    (turn : Nat) (st : LoopState) : LoopState ⊕ LoopOut :=
  match decide turn with
  | .error e => .inr ⟨.error (.decisionRaised e), st.history, st.executed⟩
  | .ok (.tool none) =>
    .inl { st with history := st.history ++ [.invalidToolRequest (turn + 1)] }
  | .ok (.tool (some rawName)) =>
    let name := pyStrip rawName
    let count := if st.lastTool = some name then st.count + 1 else 1
    let st1 : LoopState := { st with lastTool := some name, count := count }
    if count ≥ 5 then
      .inl { st1 with history := st1.history ++ [.circuitBreaker (turn + 1) name] }
    else
      let st2 : LoopState :=
        if count ≥ 3 then
          { st1 with history := st1.history ++ [.repetitionWarning (turn + 1) name] }
        else st1
      let st3 : LoopState := { st2 with executed := st2.executed ++ [(turn + 1, name)] }
      match exec turn name with
      | .ok _ =>
        .inl { st3 with history := st3.history ++ [.toolResult (turn + 1) name] }
      | .error _ =>
        .inl { st3 with history := st3.history ++ [.toolError (turn + 1) name] }
  | .ok (.final missing) =>
    if sinkRequiresBundles ∧ missing ≠ [] then
      let st1 : LoopState := { st with history := st.history ++ [.validationRetry (turn + 1)] }
      if turn + 1 < maxTurns then .inl st1
      else .inr ⟨.error .missingBundles, st1.history, st1.executed⟩
    else .inr ⟨.ok (turn + 1), st.history, st.executed⟩

/-- The loop runner; `fuel = maxTurns - turn` is the number of remaining
iterations, and its exhaustion is the `raise RuntimeError(... exceeded max
decision turns ...)` after the `for` loop. -/
def runLoopAux (decide : Nat → Except String LoopDecision)
    (exec : Nat → String → Except String Unit)
    (sinkRequiresBundles : Bool) (maxTurns : Nat) :
    Nat → Nat → LoopState → LoopOut
  | 0, _, st => ⟨.error .maxTurnsExceeded, st.history, st.executed⟩
  | fuel + 1, turn, st =>
    match loopTurn decide exec sinkRequiresBundles maxTurns turn st with
    | .inl st' => runLoopAux decide exec sinkRequiresBundles maxTurns fuel (turn + 1) st'
    | .inr out => out

/-- The decision loop of `_build_real_node_output` from the initial
state. -/
def runAgentLoop (decide : Nat → Except String LoopDecision)
    (exec : Nat → String → Except String Unit)
    (sinkRequiresBundles : Bool) (maxTurns : Nat) : LoopOut :=
  runLoopAux decide exec sinkRequiresBundles maxTurns maxTurns 0 ⟨none, 0, [], []⟩

/-- The loop state before processing decision index `t`, `none` when the
loop returned or raised before reaching `t`. -/
def loopStateAt (decide : Nat → Except String LoopDecision)
    (exec : Nat → String → Except String Unit)
    (sinkRequiresBundles : Bool) (maxTurns : Nat) : Nat → Option LoopState
  | 0 => some ⟨none, 0, [], []⟩
  | t + 1 =>
    (loopStateAt decide exec sinkRequiresBundles maxTurns t).bind fun st =>
      if t < maxTurns then
        match loopTurn decide exec sinkRequiresBundles maxTurns t st with
        | .inl st' => some st'
        | .inr _ => none
      else none

/-! ### Event streaming (workflow_runtime.py lines 2354-2449)

`stream_workflow_run_events` polls the run record under the lock.  One
poll reads the run status and the log list; logs are identified by their
integer `seq` (`_append_log` always sets one).  `workspace:change` events
depend on log payloads, which the snapshot elides — no claim mentions
them. -/

/-- What one poll iteration reads under the lock. -/
structure StreamSnapshot where
  status : RunStatus
  logSeqs : List Int
deriving DecidableEq, Repr

/-- Events yielded to the subscriber. -/
inductive StreamEvent where
  | log (seq : Int)
  | state (status : RunStatus)
  | runComplete (status : RunStatus)
deriving DecidableEq, Repr

/-- The log-collection loop: events with `seq > cursor` are collected in
list order while the cursor advances to `max(cursor, seq)`. -/
def collectNew (cursor : Int) : List Int → List Int × Int
  | [] => ([], cursor)
  | s :: rest =>
    if cursor < s then
      let t := collectNew (max cursor s) rest
      (s :: t.1, t.2)
    else collectNew cursor rest

/-- The poll loop, bounded by `fuel` iterations: yields `log` events for
each new seq and one `state` event per poll, then terminates with
`run:complete` when the status is terminal and two consecutive polls saw
no new events.  Returns the emitted events and the iteration index at
which `run:complete` was emitted, if any. -/
def streamAux (snap : Nat → StreamSnapshot) :
    Nat → Nat → Int → Nat → List StreamEvent × Option Nat
  | 0, _, _, _ => ([], none)
  | fuel + 1, i, cursor, settled =>
    let s := snap i
    let col := collectNew cursor s.logSeqs
    let emitted := col.1.map StreamEvent.log ++ [StreamEvent.state s.status]
    if s.status ∈ terminalStatuses then
      let settled' := if col.1 = [] then settled + 1 else 0
      if settled' ≥ 2 then
        (emitted ++ [StreamEvent.runComplete s.status], some i)
      else
        let rest := streamAux snap fuel (i + 1) col.2 settled'
        (emitted ++ rest.1, rest.2)
    else
      let rest := streamAux snap fuel (i + 1) col.2 0
      (emitted ++ rest.1, rest.2)

/-- `stream_workflow_run_events(run_id, last_seq)`: the poll loop from
iteration 0 with the cursor at `last_seq` and a zero settled count. -/
def streamRun (snap : Nat → StreamSnapshot) (lastSeq : Int) (fuel : Nat) :
    List StreamEvent × Option Nat :=
  streamAux snap fuel 0 lastSeq 0

/-- The `seq` of a yielded log event. -/
def StreamEvent.logSeq : StreamEvent → Option Int
  | .log s => some s
  | _ => none

/-- Whether an event is `run:complete`. -/
def StreamEvent.isComplete : StreamEvent → Bool
  | .runComplete _ => true
  | _ => false

/-! ## Supporting lemmas -/

theorem pyTake_ne_empty (s : String) (n : Nat) (hn : 0 < n) (hs : s ≠ "") :
    pyTake s n ≠ "" := by
  cases s with
  | mk l =>
    intro h
    have hdata : l.take n = [] := by
      simpa [pyTake, String.toList] using congrArg String.data h
    have hlen := congrArg List.length hdata
    simp only [List.length_take, List.length_nil] at hlen
    have hl : l.length ≠ 0 := by
      intro h0
      exact hs (by simp [List.length_eq_zero.mp h0])
    omega

theorem normalizeField_targetKey_ne {item f : HandoffField}
    (h : normalizeField item = some f) : f.targetKey ≠ "" := by
  unfold normalizeField at h
  by_cases hskip : pyStrip item.targetKey = "" ∨ pyStrip item.sourcePath = ""
  · simp [hskip] at h
  · simp only [hskip, if_false] at h
    have htk : f.targetKey = pyTake (pyStrip item.targetKey) 80 := by
      cases h; rfl
    rw [htk]
    exact pyTake_ne_empty _ _ (by omega) (fun hx => hskip (Or.inl hx))

theorem default_fields_targetKey_ne (edge : RuntimeEdgeModel) :
    ∀ g ∈ (defaultHandoffContract edge).fields, g.targetKey ≠ "" := by
  intro g hg
  simp only [defaultHandoffContract, List.mem_cons, List.not_mem_nil,
    or_false] at hg
  rcases hg with rfl | rfl | rfl <;> decide

theorem normalize_fields_targetKey_ne (edge : RuntimeEdgeModel) :
    ∀ f ∈ (normalizeHandoffContract edge).fields, f.targetKey ≠ "" := by
  intro f hf
  unfold normalizeHandoffContract at hf
  cases hc : edge.handoffContract with
  | none =>
    simp only [hc] at hf
    exact default_fields_targetKey_ne edge f hf
  | some raw =>
    simp only [hc] at hf
    by_cases hemp : ((raw.fields.take 20).filterMap normalizeField).isEmpty
    · simp only [hemp, if_true] at hf
      exact default_fields_targetKey_ne edge f hf
    · simp only [hemp, if_false] at hf
      obtain ⟨item, _, hitem⟩ := List.mem_filterMap.mp hf
      exact normalizeField_targetKey_ne hitem

theorem pyDictContains_map_overwrite (kvs : List (String × JValue))
    (k : String) (v : JValue) (k' : String) :
    pyDictContains (kvs.map fun p => if p.1 == k then (k, v) else p) k'
      = pyDictContains kvs k' := by
  induction kvs with
  | nil => rfl
  | cons p ps ih =>
    unfold pyDictContains at *
    simp only [List.map_cons, List.any_cons, ih]
    by_cases hp : (p.1 == k) = true
    · have hpk : p.1 = k := by simpa using hp
      simp [hp, hpk]
    · simp [hp]

theorem pyDictContains_insert (kvs : List (String × JValue)) (k : String)
    (v : JValue) (k' : String) :
    pyDictContains (pyDictInsert kvs k v) k'
      = (pyDictContains kvs k' || (k == k')) := by
  unfold pyDictInsert
  by_cases h : pyDictContains kvs k = true
  · rw [if_pos h, pyDictContains_map_overwrite]
    by_cases hk : (k == k') = true
    · have hkk : k = k' := by simpa using hk
      subst hkk
      simp [h]
    · simp [hk]
  · rw [if_neg h]
    unfold pyDictContains
    simp [List.any_append]

theorem pyDictContains_foldl (sourceOutput : JValue) (fields : List HandoffField)
    (acc : HandoffPayloadResult) (k : String)
    (hne : ∀ f ∈ fields, f.targetKey ≠ "") :
    pyDictContains ((fields.foldl (processHandoffField sourceOutput) acc).payload) k
      = (pyDictContains acc.payload k || fields.any (·.targetKey == k)) := by
  induction fields generalizing acc with
  | nil => simp
  | cons f fields ih =>
    have hf : f.targetKey ≠ "" := hne f (List.mem_cons_self f fields)
    have hrest : ∀ g ∈ fields, g.targetKey ≠ "" :=
      fun g hg => hne g (List.mem_cons_of_mem f hg)
    simp only [List.foldl_cons, List.any_cons]
    rw [ih _ hrest]
    have hpay : (processHandoffField sourceOutput acc f).payload
        = pyDictInsert acc.payload f.targetKey
            (coerceHandoffValue
              (if (jsonPathGet sourceOutput f.sourcePath).1
               then (jsonPathGet sourceOutput f.sourcePath).2 else .null)
              (if f.type = "" then "any" else f.type)) := by
      unfold processHandoffField
      simp [hf]
    rw [hpay, pyDictContains_insert]
    cases pyDictContains acc.payload k <;>
      cases hb : (f.targetKey == k) <;>
      cases fields.any (·.targetKey == k) <;> simp

/-! ## Claim theorems: handoff broker -/

/-- **C3.** For every edge and every source-node output, the handoff
payload computed by `_build_handoff_packet` has exactly the normalized
contract's target keys as its key set: a key is present in the payload iff
it is the `targetKey` of some normalized contract field (present even when
the source path is missing, and no other keys exist). -/
theorem c3_handoff_payload_keys_eq_contract_targetKeys
    (edge : RuntimeEdgeModel) (sourceOutput : JValue) (k : String) :
    pyDictContains (buildHandoffPacketCore edge sourceOutput).2.payload k = true
      ↔ k ∈ (buildHandoffPacketCore edge sourceOutput).1.fields.map
          (fun f => f.targetKey) := by
  unfold buildHandoffPacketCore
  rw [pyDictContains_foldl _ _ _ _ (normalize_fields_targetKey_ne edge)]
  simp only [pyDictContains, List.any_nil, Bool.false_or, List.any_eq_true,
    List.mem_map, beq_iff_eq]

/-! ## Claim theorems: handoff coercion (C4) -/

/-- **C4, counterexample.** The claim states that array coercion wraps
*any* non-list value in a single-element list.  The code's leading
`if value is None: return None` guard contradicts this: a null resolved
value (exactly what a missing source path produces) coerces to null, not
to a singleton list containing null. -/
theorem c4_counterexample_null_array_not_wrapped :
    coerceHandoffValue JValue.null "array" = JValue.null ∧
    coerceHandoffValue JValue.null "array" ≠ JValue.arr [JValue.null] := by
  exact ⟨rfl, by decide⟩

/-- **C4, amended.** Handoff coercion is a total deterministic function
equal to the spec's per-type rules amended with a null pass-through: a null
resolved value yields null for every declared type, and non-null values
follow the stated string/number/boolean/array/object/any-json rules. -/
theorem c4_coercion_equals_amended_spec (value : JValue) (fieldType : String) :
    coerceHandoffValue value fieldType = coerceSpecAmended value fieldType := by
  by_cases hnull : value = JValue.null
  · subst hnull
    unfold coerceHandoffValue coerceSpecAmended
    split_ifs <;> first | rfl | simp_all
  · unfold coerceHandoffValue coerceSpecAmended
    split_ifs <;> first
      | rfl
      | simp_all

/-! ## Claim theorems: source-path resolution (C10) -/

/-- **C10.** `_json_path_get` navigates lists: a path segment applied to a
list value is interpreted through Python `int`; an in-range non-negative
index resolves to that element and resolution continues, while
non-integer, negative, or out-of-range segments resolve as missing —
and the resolver is a total function (it never raises). -/
theorem c10_json_path_list_navigation (xs : List JValue) (part : String)
    (rest : List String) :
    (∀ (i : Int) (_ : pyParseInt part = some i) (_ : 0 ≤ i)
        (hi : i.toNat < xs.length),
        jsonPathGetSegs (.arr xs) (part :: rest)
          = jsonPathGetSegs (xs.get ⟨i.toNat, hi⟩) rest)
    ∧ (pyParseInt part = none →
        jsonPathGetSegs (.arr xs) (part :: rest) = (false, .null))
    ∧ (∀ i : Int, pyParseInt part = some i → i < 0 →
        jsonPathGetSegs (.arr xs) (part :: rest) = (false, .null))
    ∧ (∀ i : Int, pyParseInt part = some i → xs.length ≤ i.toNat →
        jsonPathGetSegs (.arr xs) (part :: rest) = (false, .null)) := by
  refine ⟨?_, ?_, ?_, ?_⟩
  · intro i hp h0 hi
    simp only [jsonPathGetSegs, hp]
    rw [dif_pos ⟨h0, hi⟩]
  · intro hp
    simp [jsonPathGetSegs, hp]
  · intro i hp hneg
    simp only [jsonPathGetSegs, hp]
    rw [dif_neg]
    rintro ⟨h0, -⟩
    omega
  · intro i hp hge
    simp only [jsonPathGetSegs, hp]
    rw [dif_neg]
    rintro ⟨-, hlt⟩
    omega

/-- **C10, witness.** Concrete instance: segment `"1"` on a two-element
list resolves to the second element; segment `"x"` resolves as missing. -/
theorem c10_json_path_list_navigation_witness :
    jsonPathGetSegs (.arr [.int 7, .str "a"]) ["1"] = (true, .str "a") ∧
    jsonPathGetSegs (.arr [.int 7, .str "a"]) ["x"] = (false, .null) := by
  constructor
  · have h := (c10_json_path_list_navigation [.int 7, .str "a"] "1" []).1 1
      (by decide) (by decide) (by decide)
    exact h.trans rfl
  · exact (c10_json_path_list_navigation [.int 7, .str "a"] "x" []).2.1 (by decide)

/-! ## Claim theorems: tool registry (C1, C8) -/

/-- **C1.** Evidence against the claim: the shipped `run_tool` dispatches
only `web_search` and `sandbox_exec`, and raises
`KeyError("Unknown tool: ...")` for each of the four workspace tools the
claim says it dispatches; the catalog of `list_tools()` likewise lacks
them.  (The claimed three-parameter `(name, args, context)` signature also
does not exist: the source's `run_tool(tool_name, args=None)` takes two,
which is outside what the embedding can type.) -/
theorem c1_run_tool_rejects_workspace_tools {α : Type}
    (webSearchRun sandboxRun : Unit → Except String α) :
    runTool "workspace_list_files" webSearchRun sandboxRun
        = .error "Unknown tool: workspace_list_files"
    ∧ runTool "workspace_read_file" webSearchRun sandboxRun
        = .error "Unknown tool: workspace_read_file"
    ∧ runTool "workspace_write_file" webSearchRun sandboxRun
        = .error "Unknown tool: workspace_write_file"
    ∧ runTool "workspace_exec" webSearchRun sandboxRun
        = .error "Unknown tool: workspace_exec"
    ∧ listTools.map (fun t => t.name) = ["web_search", "sandbox_exec"] := by
  refine ⟨?_, ?_, ?_, ?_, rfl⟩ <;>
    (unfold runTool; rw [if_neg (by decide), if_neg (by decide)]; rfl)

theorem truncateText_length_le (s : String) (n : Nat) :
    (truncateText s n).1.length ≤ n := by
  unfold truncateText
  split_ifs with h
  · exact h
  · show (pyTake s n).length ≤ n
    unfold pyTake
    show (s.toList.take n).length ≤ n
    simp [List.length_take]

/-- **C8.** A `sandbox_exec` whose child exceeds the wall-clock timeout
returns normally (no exception): `timed_out = true`, `return_code = null`,
and the captured stdout/stderr still truncated to `max_output_chars`. -/
theorem c8_sandbox_timeout_returns_normally (args : SandboxExecArgs)
    (stdout stderr : String)
    (hcount : args.files.length ≤ 20)
    (hfiles : ∀ p ∈ args.files,
      p.1.length ≤ 200 ∧ p.2.length ≤ 200000 ∧ safeRelativePathOk p.1 = true) :
    runSandboxExec args (.timedOut stdout stderr)
        = .ok { language := args.language, timedOut := true, returnCode := none,
                stdout := (truncateText stdout args.maxOutputChars).1,
                stderr := (truncateText stderr args.maxOutputChars).1,
                stdoutTruncated := (truncateText stdout args.maxOutputChars).2,
                stderrTruncated := (truncateText stderr args.maxOutputChars).2 }
    ∧ (truncateText stdout args.maxOutputChars).1.length ≤ args.maxOutputChars
    ∧ (truncateText stderr args.maxOutputChars).1.length ≤ args.maxOutputChars := by
  refine ⟨?_, truncateText_length_le _ _, truncateText_length_le _ _⟩
  unfold runSandboxExec
  rw [if_neg (by omega)]
  rw [if_neg ?hpath]
  case hpath =>
    simp only [List.any_eq_true, decide_eq_true_eq, not_exists, not_and, not_lt]
    intro p hp
    exact (hfiles p hp).1
  rw [if_neg ?hcontent]
  case hcontent =>
    simp only [List.any_eq_true, decide_eq_true_eq, not_exists, not_and, not_lt]
    intro p hp
    exact (hfiles p hp).2.1
  rw [if_neg ?hsafe]
  case hsafe =>
    simp only [List.any_eq_true, Bool.not_eq_true', not_exists, not_and]
    intro p hp
    simp [(hfiles p hp).2.2]

/-- **C8, witness.** A concrete timed-out execution with no auxiliary
files and `max_output_chars = 5`. -/
theorem c8_sandbox_timeout_witness :
    runSandboxExec ⟨"python", "print(1)", "", 5, []⟩ (.timedOut "abcdefgh" "")
      = .ok ⟨"python", true, none, "abcde", "", true, false⟩ := by
  have h := c8_sandbox_timeout_returns_normally ⟨"python", "print(1)", "", 5, []⟩
    "abcdefgh" "" (by decide) (by simp)
  exact h.1.trans (by rfl)

/-! ## Claim theorems: run lifecycle (C2, C9) -/

/-- **C2.** The claim is false of the code.  `_finalize_run_success`
stamps `status = "success"`, `finishedAt` and `durationMs` (lines
1826-1830) before `_persist_run_deliverables` (line 1927) performs file
I/O; if persisting raises, the unguarded `except Exception` handler of
`_execute_run` (lines 2244-2269) overwrites the already terminal run with
`status = "failed"`, a fresh `finishedAt` and a recomputed `durationMs`.
Concretely: the success-stamped run is reachable and terminal, yet the
handler step that models a persist failure changes all three frozen
fields. -/
theorem c2_terminal_fields_overwritten_on_persist_failure :
    SchedReachable (mkInitialRunState 1)
        (stampRunSuccess 5 (admitRun 0 (mkInitialRunState 1)))
    ∧ (stampRunSuccess 5 (admitRun 0 (mkInitialRunState 1))).status
        ∈ terminalStatuses
    ∧ SchedStep (stampRunSuccess 5 (admitRun 0 (mkInitialRunState 1)))
        (failRun 7 "persist failed"
          (stampRunSuccess 5 (admitRun 0 (mkInitialRunState 1))))
    ∧ (failRun 7 "persist failed"
          (stampRunSuccess 5 (admitRun 0 (mkInitialRunState 1)))).status
        ≠ (stampRunSuccess 5 (admitRun 0 (mkInitialRunState 1))).status
    ∧ (failRun 7 "persist failed"
          (stampRunSuccess 5 (admitRun 0 (mkInitialRunState 1)))).finishedAt
        ≠ (stampRunSuccess 5 (admitRun 0 (mkInitialRunState 1))).finishedAt
    ∧ (failRun 7 "persist failed"
          (stampRunSuccess 5 (admitRun 0 (mkInitialRunState 1)))).durationMs
        ≠ (stampRunSuccess 5 (admitRun 0 (mkInitialRunState 1))).durationMs := by
  refine ⟨?_, by decide, SchedStep.persistFail 7 "persist failed" _ (by decide),
    by decide, by decide, by decide⟩
  exact Relation.ReflTransGen.tail
    (Relation.ReflTransGen.single (SchedStep.admitQueued 0 _))
    (SchedStep.stampSuccess 5 _ (by decide) (by decide))

theorem isWorkerTitle_ne_runCancelled {t : LogTitle}
    (h : t.isWorkerTitle = true) : t ≠ LogTitle.runCancelled := by
  cases t <;> simp_all [LogTitle.isWorkerTitle]

theorem countRunCancelled_appendLog (r : RunState) (c : String) (t : LogTitle) :
    countRunCancelled (appendLog r c t)
      = countRunCancelled r + (if t = .runCancelled then 1 else 0) := by
  unfold countRunCancelled appendLog
  by_cases ht : t = .runCancelled <;>
    simp [List.filter_append, ht]

theorem countRunCancelled_append_entries (r : RunState) (entries : List LogEntry)
    (nodeRuns2 : List NodeRunState) (active2 : Option String)
    (h : ∀ e ∈ entries, e.title ≠ LogTitle.runCancelled) :
    countRunCancelled
        { r with
          logs := r.logs ++ entries
          nodeRuns := nodeRuns2
          activeNode := active2 }
      = countRunCancelled r := by
  unfold countRunCancelled
  simp only [List.filter_append, List.length_append]
  have : entries.filter (fun e => e.title == LogTitle.runCancelled) = [] := by
    rw [List.filter_eq_nil_iff]
    intro e he
    simpa using h e he
  simp [this]

theorem schedStep_cancelLog_invariant {r r' : RunState} (h : SchedStep r r')
    (hcount : countRunCancelled r ≤ 1)
    (hnt : (r.status = .queued ∨ r.status = .running) → countRunCancelled r = 0) :
    countRunCancelled r' ≤ 1
      ∧ ((r'.status = .queued ∨ r'.status = .running) → countRunCancelled r' = 0) := by
  cases h with
  | admitQueued now r =>
    unfold admitRun
    by_cases hq : r.status ≠ .queued
    · rw [if_pos hq]
      exact ⟨hcount, hnt⟩
    · rw [if_neg hq]
      push_neg at hq
      have h0 : countRunCancelled r = 0 := hnt (Or.inl hq)
      have hc : countRunCancelled
          (appendLog (appendLog { r with status := .running, startedAt := some now }
            "lifecycle" .runStarted) "input" .runWorkspaceReady) = 0 := by
        rw [countRunCancelled_appendLog, countRunCancelled_appendLog]
        simpa [countRunCancelled] using h0
      exact ⟨by rw [hc]; omega, fun _ => hc⟩
  | extCancel r =>
    unfold cancelWorkflowRun
    by_cases hterm : r.status ∈ terminalStatuses
    · rw [if_pos hterm]
      exact ⟨hcount, hnt⟩
    · rw [if_neg hterm]
      have hlog : countRunCancelled
          (appendLog { r with cancelRequested := true } "control" .cancellationRequested)
          = countRunCancelled r := by
        rw [countRunCancelled_appendLog]
        simp [countRunCancelled]
      rw [hlog]
      exact ⟨hcount, fun hs => hnt (by simpa using hs)⟩
  | observeCancel now r hrun hreq =>
    have h0 : countRunCancelled r = 0 := hnt (Or.inr hrun)
    have hstat : (markCancelled now r).status = RunStatus.cancelled := by
      unfold markCancelled appendLog
      have : ¬ (r.status ∈ terminalStatuses) := by
        rw [hrun]; decide
      simp [this]
    have hcnt : countRunCancelled (markCancelled now r) = countRunCancelled r + 1 := by
      unfold markCancelled
      rw [countRunCancelled_appendLog]
      simp [countRunCancelled]
    refine ⟨by omega, fun hs => ?_⟩
    rw [hstat] at hs
    rcases hs with hs | hs <;> exact absurd hs (by decide)
  | nodeWork r entries nodeRuns2 active2 hrun htitles =>
    have hcnt := countRunCancelled_append_entries r entries nodeRuns2 active2
      (fun e he => isWorkerTitle_ne_runCancelled (htitles e he))
    rw [hcnt]
    exact ⟨hcount, fun _ => hnt (Or.inr hrun)⟩
  | stampSuccess now r hrun hnc =>
    have hcnt : countRunCancelled (stampRunSuccess now r) = countRunCancelled r := rfl
    have hstat : (stampRunSuccess now r).status = RunStatus.success := rfl
    refine ⟨by omega, fun hs => ?_⟩
    rw [hstat] at hs
    rcases hs with hs | hs <;> exact absurd hs (by decide)
  | persistOutputs r hsucc =>
    have hcnt : countRunCancelled (appendLog r "output" .workflowOutputsFinalized)
        = countRunCancelled r := by
      rw [countRunCancelled_appendLog]
      simp
    have hstat : (appendLog r "output" .workflowOutputsFinalized).status = r.status := rfl
    refine ⟨by omega, fun hs => ?_⟩
    rw [hstat, hsucc] at hs
    rcases hs with hs | hs <;> exact absurd hs (by decide)
  | persistFail now err r hsucc =>
    have hcnt : countRunCancelled (failRun now err r) = countRunCancelled r := by
      unfold failRun
      rw [countRunCancelled_appendLog]
      simp [countRunCancelled]
    have hstat : (failRun now err r).status = RunStatus.failed := by
      unfold failRun appendLog
      rfl
    refine ⟨by omega, fun hs => ?_⟩
    rw [hstat] at hs
    rcases hs with hs | hs <;> exact absurd hs (by decide)
  | fail now err r hrun =>
    have h0 : countRunCancelled r = 0 := hnt (Or.inr hrun)
    have hcnt : countRunCancelled (failRun now err r) = 0 := by
      unfold failRun
      rw [countRunCancelled_appendLog]
      simpa [countRunCancelled] using h0
    have hstat : (failRun now err r).status = RunStatus.failed := by
      unfold failRun appendLog
      rfl
    refine ⟨by omega, fun hs => ?_⟩
    rw [hstat] at hs
    rcases hs with hs | hs <;> exact absurd hs (by decide)

/-- **C9.** However many times `cancel_workflow_run` is called and in
whatever order the scheduler observes the `cancelRequested` flag, at most
one `control / Run cancelled` log is ever appended to a run. -/
theorem c9_at_most_one_run_cancelled_log (n : Nat) (r : RunState)
    (hreach : SchedReachable (mkInitialRunState n) r) :
    countRunCancelled r ≤ 1 := by
  suffices h : countRunCancelled r ≤ 1
      ∧ ((r.status = .queued ∨ r.status = .running) → countRunCancelled r = 0)
    from h.1
  induction hreach with
  | refl =>
    constructor <;> simp [countRunCancelled, mkInitialRunState]
  | tail _ hstep ih =>
    exact schedStep_cancelLog_invariant hstep ih.1 ih.2

/-- **C9, witness.** Cancel is requested, the run is admitted, then the
scheduler observes the flag: exactly one `Run cancelled` log results. -/
theorem c9_at_most_one_run_cancelled_log_witness :
    countRunCancelled
        (markCancelled 1 (admitRun 0 (cancelWorkflowRun (mkInitialRunState 1)))) ≤ 1
    ∧ countRunCancelled
        (markCancelled 1 (admitRun 0 (cancelWorkflowRun (mkInitialRunState 1)))) = 1 := by
  refine ⟨c9_at_most_one_run_cancelled_log 1 _ ?_, by decide⟩
  refine Relation.ReflTransGen.tail (Relation.ReflTransGen.tail
    (Relation.ReflTransGen.single (SchedStep.extCancel _))
    (SchedStep.admitQueued 0 _)) ?_
  exact SchedStep.observeCancel 1 _ (by decide) (by decide)

/-! ## Claim theorems: decision parse retry (C7) -/

/-- **C7, counterexample.** The claim says every malformed LLM reply gets
exactly one retry.  On the preferred OpenAI-SDK path (taken whenever the
`openai` import succeeded) a single parse failure raises immediately: the
LLM is called exactly once and the error propagates with no retry. -/
theorem c7_counterexample_sdk_path_retries_zero_times :
    (@invokeRuntimeAgentDecision Unit true true (fun _ => "not json")
        (fun _ => .error "invalid JSON for runtime agent decision")
        "sys" "user" "schema").2.length = 1
    ∧ (@invokeRuntimeAgentDecision Unit true true (fun _ => "not json")
        (fun _ => .error "invalid JSON for runtime agent decision")
        "sys" "user" "schema").1
      = .error "invalid JSON for runtime agent decision" :=
  ⟨rfl, rfl⟩

/-- **C7, amended.** On the `ChatOpenAI` fallback path (OpenAI SDK
unavailable), a malformed reply gets exactly one retry whose message list
appends a corrective human message quoting the previous raw reply
truncated to 4000 characters; only a second parse failure raises the
`RuntimeError`, which the scheduler's exception handler turns into run
failure (last conjunct).  On the SDK path a single failure raises at once
(see the counterexample). -/
theorem c7_amended_fallback_one_retry {δ : Type}
    (llm : List ChatMsg → String) (interpret : String → Except String δ)
    (systemPrompt userText schemaText : String) :
    (∀ d, interpret (llm (baseDecisionMsgs systemPrompt userText schemaText)) = .ok d →
        invokeRuntimeAgentDecision false true llm interpret
            systemPrompt userText schemaText
          = (.ok d, [baseDecisionMsgs systemPrompt userText schemaText]))
    ∧ (∀ e1, interpret (llm (baseDecisionMsgs systemPrompt userText schemaText))
          = .error e1 →
        (invokeRuntimeAgentDecision false true llm interpret
            systemPrompt userText schemaText).2
            = [baseDecisionMsgs systemPrompt userText schemaText,
                baseDecisionMsgs systemPrompt userText schemaText
                  ++ [correctiveRetryMsg
                        (llm (baseDecisionMsgs systemPrompt userText schemaText))]]
        ∧ (∀ d, interpret (llm (baseDecisionMsgs systemPrompt userText schemaText
                ++ [correctiveRetryMsg
                      (llm (baseDecisionMsgs systemPrompt userText schemaText))]))
              = .ok d →
            (invokeRuntimeAgentDecision false true llm interpret
                systemPrompt userText schemaText).1 = .ok d)
        ∧ (∀ e2, interpret (llm (baseDecisionMsgs systemPrompt userText schemaText
                ++ [correctiveRetryMsg
                      (llm (baseDecisionMsgs systemPrompt userText schemaText))]))
              = .error e2 →
            (invokeRuntimeAgentDecision false true llm interpret
                systemPrompt userText schemaText).1 = .error e2))
    ∧ (∀ (now : Nat) (err : String) (r : RunState), r.status = .running →
        (failRun now err r).status = .failed ∧ (failRun now err r).error = some err) := by
  refine ⟨?_, ?_, ?_⟩
  · intro d hd
    unfold invokeRuntimeAgentDecision
    rw [if_neg (by decide), if_pos (by decide)]
    simp [hd]
  · intro e1 he1
    refine ⟨?_, ?_, ?_⟩
    · unfold invokeRuntimeAgentDecision
      rw [if_neg (by decide), if_pos (by decide)]
      simp only [he1]
      cases interpret (llm (baseDecisionMsgs systemPrompt userText schemaText
        ++ [correctiveRetryMsg
              (llm (baseDecisionMsgs systemPrompt userText schemaText))])) <;> rfl
    · intro d hd2
      unfold invokeRuntimeAgentDecision
      rw [if_neg (by decide), if_pos (by decide)]
      simp [he1, hd2]
    · intro e2 he2
      unfold invokeRuntimeAgentDecision
      rw [if_neg (by decide), if_pos (by decide)]
      simp [he1, he2]
  · intro now err r _
    exact ⟨rfl, rfl⟩

/-- **C7, witness.** A concrete fallback run: the first reply is
malformed, the corrective second call parses, and exactly two LLM calls
were made. -/
theorem c7_amended_fallback_one_retry_witness :
    (@invokeRuntimeAgentDecision Unit false true
        (fun msgs => if msgs.length = 2 then "bad" else "good")
        (fun s => if s = "good" then .ok () else .error "Model returned invalid JSON")
        "sys" "user" "schema").1 = .ok ()
    ∧ (@invokeRuntimeAgentDecision Unit false true
        (fun msgs => if msgs.length = 2 then "bad" else "good")
        (fun s => if s = "good" then .ok () else .error "Model returned invalid JSON")
        "sys" "user" "schema").2.length = 2 := by
  have h := @c7_amended_fallback_one_retry Unit
    (fun msgs => if msgs.length = 2 then "bad" else "good")
    (fun s => if s = "good" then .ok () else .error "Model returned invalid JSON")
    "sys" "user" "schema"
  obtain ⟨hlog, hok, _⟩ := h.2.1 "Model returned invalid JSON" (by decide)
  refine ⟨hok () (by decide), ?_⟩
  rw [hlog]
  rfl

/-! ## Supporting lemmas: the decision loop (C5) -/

theorem loopTurn_inr_spec {decide : Nat → Except String LoopDecision}
    {exec : Nat → String → Except String Unit} {sink : Bool} {maxTurns : Nat}
    {turn : Nat} {st : LoopState} {out : LoopOut}
    (h : loopTurn decide exec sink maxTurns turn st = .inr out) :
    out.executed = st.executed
      ∧ (out.history = st.history
          ∨ out.history = st.history ++ [.validationRetry (turn + 1)]) := by
  unfold loopTurn at h
  dsimp only at h
  cases hd : decide turn with
  | error e =>
    rw [hd] at h
    dsimp only at h
    cases h
    exact ⟨rfl, Or.inl rfl⟩
  | ok d =>
    rw [hd] at h
    cases d with
    | tool req =>
      cases req with
      | none => cases h
      | some rawName =>
        dsimp only at h
        by_cases h5 : (if st.lastTool = some (pyStrip rawName)
            then st.count + 1 else 1) ≥ 5
        · rw [if_pos h5] at h
          cases h
        · rw [if_neg h5] at h
          by_cases h3 : (if st.lastTool = some (pyStrip rawName)
              then st.count + 1 else 1) ≥ 3
          · rw [if_pos h3] at h
            cases hex : exec turn (pyStrip rawName) with
            | ok u => simp only [hex] at h; cases h
            | error e2 => simp only [hex] at h; cases h
          · rw [if_neg h3] at h
            cases hex : exec turn (pyStrip rawName) with
            | ok u => simp only [hex] at h; cases h
            | error e2 => simp only [hex] at h; cases h
    | final missing =>
      dsimp only at h
      by_cases hval : sink = true ∧ missing ≠ []
      · rw [if_pos hval] at h
        by_cases hlt : turn + 1 < maxTurns
        · rw [if_pos hlt] at h
          cases h
        · rw [if_neg hlt] at h
          cases h
          exact ⟨rfl, Or.inr rfl⟩
      · rw [if_neg hval] at h
        cases h
        exact ⟨rfl, Or.inl rfl⟩

theorem loopTurn_inl_spec {decide : Nat → Except String LoopDecision}
    {exec : Nat → String → Except String Unit} {sink : Bool} {maxTurns : Nat}
    {turn : Nat} {st st' : LoopState}
    (h : loopTurn decide exec sink maxTurns turn st = .inl st') :
    ∃ hext eext, st'.history = st.history ++ hext
      ∧ st'.executed = st.executed ++ eext
      ∧ (∀ e ∈ hext, e.turn = turn + 1)
      ∧ (∀ p ∈ eext, p.1 = turn + 1)
      ∧ (∀ n, HistEntry.circuitBreaker (turn + 1) n ∈ hext → eext = []) := by
  unfold loopTurn at h
  dsimp only at h
  cases hd : decide turn with
  | error e =>
    rw [hd] at h
    dsimp only at h
    cases h
  | ok d =>
    rw [hd] at h
    cases d with
    | tool req =>
      cases req with
      | none =>
        cases h
        exact ⟨[.invalidToolRequest (turn + 1)], [], rfl, by simp,
          by simp [HistEntry.turn], by simp, by simp⟩
      | some rawName =>
        dsimp only at h
        by_cases h5 : (if st.lastTool = some (pyStrip rawName)
            then st.count + 1 else 1) ≥ 5
        · rw [if_pos h5] at h
          cases h
          exact ⟨[.circuitBreaker (turn + 1) (pyStrip rawName)], [], rfl, by simp,
            by simp [HistEntry.turn], by simp, by simp⟩
        · rw [if_neg h5] at h
          by_cases h3 : (if st.lastTool = some (pyStrip rawName)
              then st.count + 1 else 1) ≥ 3
          · rw [if_pos h3] at h
            cases hex : exec turn (pyStrip rawName) with
            | ok u =>
              simp only [hex] at h
              cases h
              refine ⟨[.repetitionWarning (turn + 1) (pyStrip rawName),
                  .toolResult (turn + 1) (pyStrip rawName)],
                [(turn + 1, pyStrip rawName)], by simp, by simp, ?_, by simp, ?_⟩
              · intro e he
                simp only [List.mem_cons, List.not_mem_nil, or_false] at he
                rcases he with rfl | rfl <;> rfl
              · intro n hn
                simp at hn
            | error e2 =>
              simp only [hex] at h
              cases h
              refine ⟨[.repetitionWarning (turn + 1) (pyStrip rawName),
                  .toolError (turn + 1) (pyStrip rawName)],
                [(turn + 1, pyStrip rawName)], by simp, by simp, ?_, by simp, ?_⟩
              · intro e he
                simp only [List.mem_cons, List.not_mem_nil, or_false] at he
                rcases he with rfl | rfl <;> rfl
              · intro n hn
                simp at hn
          · rw [if_neg h3] at h
            cases hex : exec turn (pyStrip rawName) with
            | ok u =>
              simp only [hex] at h
              cases h
              refine ⟨[.toolResult (turn + 1) (pyStrip rawName)],
                [(turn + 1, pyStrip rawName)], by simp, by simp, ?_, by simp, by simp⟩
              intro e he
              simp only [List.mem_cons, List.not_mem_nil, or_false] at he
              rcases he with rfl
              rfl
            | error e2 =>
              simp only [hex] at h
              cases h
              refine ⟨[.toolError (turn + 1) (pyStrip rawName)],
                [(turn + 1, pyStrip rawName)], by simp, by simp, ?_, by simp, by simp⟩
              intro e he
              simp only [List.mem_cons, List.not_mem_nil, or_false] at he
              rcases he with rfl
              rfl
    | final missing =>
      dsimp only at h
      by_cases hval : sink = true ∧ missing ≠ []
      · rw [if_pos hval] at h
        by_cases hlt : turn + 1 < maxTurns
        · rw [if_pos hlt] at h
          cases h
          exact ⟨[.validationRetry (turn + 1)], [], rfl, by simp,
            by simp [HistEntry.turn], by simp, by simp⟩
        · rw [if_neg hlt] at h
          cases h
      · rw [if_neg hval] at h
        cases h

theorem loopTurn_tool_some_spec {decide : Nat → Except String LoopDecision}
    {exec : Nat → String → Except String Unit} {sink : Bool} {maxTurns : Nat}
    {turn : Nat} (st : LoopState) {rawName : String}
    (hd : decide turn = .ok (.tool (some rawName))) :
    ∃ st', loopTurn decide exec sink maxTurns turn st = .inl st'
      ∧ st'.lastTool = some (pyStrip rawName)
      ∧ st'.count = (if st.lastTool = some (pyStrip rawName) then st.count + 1 else 1)
      ∧ (5 ≤ st'.count →
          HistEntry.circuitBreaker (turn + 1) (pyStrip rawName) ∈ st'.history)
      ∧ (3 ≤ st'.count → st'.count < 5 →
          HistEntry.repetitionWarning (turn + 1) (pyStrip rawName) ∈ st'.history) := by
  unfold loopTurn
  rw [hd]
  dsimp only
  by_cases h5 : (if st.lastTool = some (pyStrip rawName) then st.count + 1 else 1) ≥ 5
  · rw [if_pos h5]
    exact ⟨_, rfl, rfl, rfl, fun _ => by simp, fun _ hlt => by dsimp only at hlt; omega⟩
  · rw [if_neg h5]
    by_cases h3 : (if st.lastTool = some (pyStrip rawName) then st.count + 1 else 1) ≥ 3
    · rw [if_pos h3]
      cases hex : exec turn (pyStrip rawName) with
      | ok u =>
        exact ⟨_, rfl, rfl, rfl, fun hge => absurd hge h5, fun _ _ => by simp⟩
      | error e2 =>
        exact ⟨_, rfl, rfl, rfl, fun hge => absurd hge h5, fun _ _ => by simp⟩
    · rw [if_neg h3]
      cases hex : exec turn (pyStrip rawName) with
      | ok u =>
        exact ⟨_, rfl, rfl, rfl, fun hge => absurd hge h5, fun hge _ => absurd hge h3⟩
      | error e2 =>
        exact ⟨_, rfl, rfl, rfl, fun hge => absurd hge h5, fun hge _ => absurd hge h3⟩

theorem loopStateAt_succ_of_inl {decide : Nat → Except String LoopDecision}
    {exec : Nat → String → Except String Unit} {sink : Bool} {maxTurns : Nat}
    {t : Nat} {st st' : LoopState}
    (hst : loopStateAt decide exec sink maxTurns t = some st)
    (ht : t < maxTurns)
    (hstep : loopTurn decide exec sink maxTurns t st = .inl st') :
    loopStateAt decide exec sink maxTurns (t + 1) = some st' := by
  unfold loopStateAt
  rw [hst]
  simp only [Option.some_bind, if_pos ht, hstep]

theorem loopStateAt_run {decide : Nat → Except String LoopDecision}
    {exec : Nat → String → Except String Unit} {sink : Bool} {maxTurns : Nat} :
    ∀ (t : Nat) (st : LoopState),
      loopStateAt decide exec sink maxTurns t = some st →
      t ≤ maxTurns ∧
        runAgentLoop decide exec sink maxTurns
          = runLoopAux decide exec sink maxTurns (maxTurns - t) t st := by
  intro t
  induction t with
  | zero =>
    intro st h
    unfold loopStateAt at h
    cases h
    exact ⟨Nat.zero_le _, rfl⟩
  | succ t ih =>
    intro st' h
    unfold loopStateAt at h
    cases hst : loopStateAt decide exec sink maxTurns t with
    | none => rw [hst] at h; cases h
    | some st =>
      rw [hst] at h
      simp only [Option.some_bind] at h
      by_cases ht : t < maxTurns
      · rw [if_pos ht] at h
        cases hstep : loopTurn decide exec sink maxTurns t st with
        | inr out => rw [hstep] at h; cases h
        | inl stm =>
          rw [hstep] at h
          cases h
          obtain ⟨-, hrun⟩ := ih st hst
          refine ⟨ht, ?_⟩
          rw [hrun]
          have hfuel : maxTurns - t = (maxTurns - (t + 1)) + 1 := by omega
          rw [hfuel]
          conv_lhs => rw [runLoopAux]
          rw [hstep]
      · rw [if_neg ht] at h
        cases h

theorem runLoopAux_extends {decide : Nat → Except String LoopDecision}
    {exec : Nat → String → Except String Unit} {sink : Bool} {maxTurns : Nat} :
    ∀ (fuel turn : Nat) (st : LoopState),
      st.history <+: (runLoopAux decide exec sink maxTurns fuel turn st).history
      ∧ st.executed <+: (runLoopAux decide exec sink maxTurns fuel turn st).executed := by
  intro fuel
  induction fuel with
  | zero => intro turn st; exact ⟨List.prefix_refl _, List.prefix_refl _⟩
  | succ fuel ih =>
    intro turn st
    unfold runLoopAux
    cases hstep : loopTurn decide exec sink maxTurns turn st with
    | inl st' =>
      obtain ⟨hext, eext, hh, he, -, -, -⟩ := loopTurn_inl_spec hstep
      obtain ⟨ih1, ih2⟩ := ih (turn + 1) st'
      constructor
      · exact List.IsPrefix.trans (hh ▸ List.prefix_append _ _) ih1
      · exact List.IsPrefix.trans (he ▸ List.prefix_append _ _) ih2
    | inr out =>
      obtain ⟨he, hh⟩ := loopTurn_inr_spec hstep
      constructor
      · rcases hh with hh | hh
        · rw [hh]
        · rw [hh]; exact List.prefix_append _ _
      · rw [he]

theorem runLoopAux_breaker_excl {decide : Nat → Except String LoopDecision}
    {exec : Nat → String → Except String Unit} {sink : Bool} {maxTurns : Nat} :
    ∀ (fuel turn : Nat) (st : LoopState),
      (∀ t n, HistEntry.circuitBreaker t n ∈ st.history → (t, n) ∉ st.executed) →
      (∀ e ∈ st.history, e.turn ≤ turn) →
      (∀ p ∈ st.executed, p.1 ≤ turn) →
      ∀ t n,
        HistEntry.circuitBreaker t n
            ∈ (runLoopAux decide exec sink maxTurns fuel turn st).history →
        (t, n) ∉ (runLoopAux decide exec sink maxTurns fuel turn st).executed := by
  intro fuel
  induction fuel with
  | zero => intro turn st hb _ _ t n hmem; exact hb t n hmem
  | succ fuel ih =>
    intro turn st hb hh he t n
    unfold runLoopAux
    cases hstep : loopTurn decide exec sink maxTurns turn st with
    | inr out =>
      obtain ⟨hex, hhi⟩ := loopTurn_inr_spec hstep
      intro hmem
      rw [hex]
      have hmem' : HistEntry.circuitBreaker t n ∈ st.history := by
        rcases hhi with hhi | hhi
        · rwa [hhi] at hmem
        · rw [hhi] at hmem
          rcases List.mem_append.mp hmem with hm | hm
          · exact hm
          · simp at hm
      exact hb t n hmem'
    | inl st' =>
      obtain ⟨hext, eext, hhist, hexec, hturns, eturns, hbrk⟩ := loopTurn_inl_spec hstep
      refine ih (turn + 1) st' ?_ ?_ ?_ t n
      · intro t' n' hmem hmem2
        rw [hhist] at hmem
        rw [hexec] at hmem2
        rcases List.mem_append.mp hmem with hm | hm
        · rcases List.mem_append.mp hmem2 with hm2 | hm2
          · exact hb t' n' hm hm2
          · have ht' : t' ≤ turn := hh _ hm
            have h2 : (t', n').1 = turn + 1 := eturns _ hm2
            dsimp only at h2
            omega
        · have heq : t' = turn + 1 := hturns _ hm
          subst heq
          have : eext = [] := hbrk n' hm
          rw [this] at hmem2
          rcases List.mem_append.mp hmem2 with hm2 | hm2
          · have h2 := he _ hm2
            dsimp only at h2
            omega
          · simp at hm2
      · intro e hmem
        rw [hhist] at hmem
        rcases List.mem_append.mp hmem with hm | hm
        · exact Nat.le_succ_of_le (hh _ hm)
        · exact Nat.le_of_eq (hturns _ hm)
      · intro p hmem
        rw [hexec] at hmem
        rcases List.mem_append.mp hmem with hm | hm
        · exact Nat.le_succ_of_le (he _ hm)
        · exact Nat.le_of_eq (eturns _ hm)

theorem loopStateAt_tool_step {decide : Nat → Except String LoopDecision}
    {exec : Nat → String → Except String Unit} {sink : Bool} {maxTurns : Nat}
    {t : Nat} {st : LoopState} {rawName : String}
    (hst : loopStateAt decide exec sink maxTurns t = some st)
    (ht : t < maxTurns)
    (hd : decide t = .ok (.tool (some rawName))) :
    ∃ st', loopStateAt decide exec sink maxTurns (t + 1) = some st'
      ∧ st'.lastTool = some (pyStrip rawName)
      ∧ st'.count = (if st.lastTool = some (pyStrip rawName) then st.count + 1 else 1)
      ∧ (5 ≤ st'.count →
          HistEntry.circuitBreaker (t + 1) (pyStrip rawName) ∈ st'.history)
      ∧ (3 ≤ st'.count → st'.count < 5 →
          HistEntry.repetitionWarning (t + 1) (pyStrip rawName) ∈ st'.history) := by
  obtain ⟨st', hstep, hlast, hcount, hbrk, hwarn⟩ :=
    @loopTurn_tool_some_spec decide exec sink maxTurns t st rawName hd
  exact ⟨st', loopStateAt_succ_of_inl hst ht hstep, hlast, hcount, hbrk, hwarn⟩

theorem consecutive_count_ge {decide : Nat → Except String LoopDecision}
    {exec : Nat → String → Except String Unit} {sink : Bool} {maxTurns : Nat}
    (name : String) :
    ∀ (j t : Nat) (st : LoopState), 1 ≤ j →
      loopStateAt decide exec sink maxTurns t = some st →
      (∀ k, k < j → ∃ r, decide (t + k) = .ok (.tool (some r)) ∧ pyStrip r = name) →
      t + j ≤ maxTurns →
      ∃ st', loopStateAt decide exec sink maxTurns (t + j) = some st'
        ∧ st'.lastTool = some name ∧ j ≤ st'.count := by
  intro j
  induction j with
  | zero => intro t st h1; omega
  | succ j ih =>
    intro t st hone hst hreq hbound
    cases Nat.eq_zero_or_pos j with
    | inl hj0 =>
      subst hj0
      obtain ⟨r, hr, hrs⟩ := hreq 0 (by omega)
      rw [Nat.add_zero] at hr
      obtain ⟨st', hst', hlast, hcount, -, -⟩ :=
        loopStateAt_tool_step hst (by omega) hr
      refine ⟨st', by simpa using hst', by rw [hlast, hrs], ?_⟩
      rw [hcount]
      split <;> omega
    | inr hj1 =>
      obtain ⟨stj, hstj, hlastj, hcountj⟩ := ih t st hj1 hst
        (fun k hk => hreq k (by omega)) (by omega)
      obtain ⟨r, hr, hrs⟩ := hreq j (by omega)
      obtain ⟨st', hst', hlast, hcount, -, -⟩ :=
        loopStateAt_tool_step hstj (by omega) hr
      have hidx : t + (j + 1) = t + j + 1 := by omega
      refine ⟨st', by rw [hidx]; exact hst', by rw [hlast, hrs], ?_⟩
      rw [hcount, hrs, hlastj, if_pos rfl]
      omega

theorem runLoopAux_final_ok {decide : Nat → Except String LoopDecision}
    {exec : Nat → String → Except String Unit} {sink : Bool} {maxTurns : Nat}
    (t : Nat)
    (hok : ∀ k, k < t → ∃ d, decide k = .ok d)
    (htm : t < maxTurns) (hfin : decide t = .ok (.final [])) :
    ∀ (fuel turn : Nat) (st : LoopState), turn + fuel = maxTurns → turn ≤ t →
      ∃ n, (runLoopAux decide exec sink maxTurns fuel turn st).result = .ok n := by
  intro fuel
  induction fuel with
  | zero => intro turn st hsum hle; omega
  | succ fuel ih =>
    intro turn st hsum hle
    by_cases heq : turn = t
    · subst heq
      have hstep : loopTurn decide exec sink maxTurns turn st
          = .inr ⟨.ok (turn + 1), st.history, st.executed⟩ := by
        unfold loopTurn
        rw [hfin]
        dsimp only
        rw [if_neg (by simp)]
      unfold runLoopAux
      rw [hstep]
      exact ⟨turn + 1, rfl⟩
    · have hlt : turn < t := lt_of_le_of_ne hle heq
      obtain ⟨d, hd⟩ := hok turn hlt
      cases d with
      | tool req =>
        cases req with
        | none =>
          have hstep : loopTurn decide exec sink maxTurns turn st
              = .inl { st with
                  history := st.history ++ [.invalidToolRequest (turn + 1)] } := by
            unfold loopTurn
            rw [hd]
          unfold runLoopAux
          rw [hstep]
          exact ih (turn + 1) _ (by omega) (by omega)
        | some rawName =>
          obtain ⟨st', hstep, -, -, -, -⟩ :=
            @loopTurn_tool_some_spec decide exec sink maxTurns turn st rawName hd
          unfold runLoopAux
          rw [hstep]
          exact ih (turn + 1) st' (by omega) (by omega)
      | final missing =>
        by_cases hval : sink = true ∧ missing ≠ []
        · have hstep : loopTurn decide exec sink maxTurns turn st
              = .inl { st with
                  history := st.history ++ [.validationRetry (turn + 1)] } := by
            unfold loopTurn
            rw [hd]
            dsimp only
            rw [if_pos hval, if_pos (by omega)]
          unfold runLoopAux
          rw [hstep]
          exact ih (turn + 1) _ (by omega) (by omega)
        · have hstep : loopTurn decide exec sink maxTurns turn st
              = .inr ⟨.ok (turn + 1), st.history, st.executed⟩ := by
            unfold loopTurn
            rw [hd]
            dsimp only
            rw [if_neg hval]
          unfold runLoopAux
          rw [hstep]
          exact ⟨turn + 1, rfl⟩

/-! ## Claim theorems: repetition control (C5) -/

/-- **C5, counterexample.** The claim says no tool call is executed after
the circuit breaker triggers.  In the code the consecutive counter is
reset whenever a different tool is requested: after five consecutive `x`
requests trigger the breaker at turn 5, a request for tool `y` at turn 6
is executed. -/
theorem c5_counterexample_tool_executed_after_breaker :
    HistEntry.circuitBreaker 5 "x"
        ∈ (runAgentLoop
            (fun t => if t < 5 then .ok (.tool (some "x"))
              else if t = 5 then .ok (.tool (some "y")) else .ok (.final []))
            (fun _ _ => .ok ()) false 100).history
    ∧ (6, "y")
        ∈ (runAgentLoop
            (fun t => if t < 5 then .ok (.tool (some "x"))
              else if t = 5 then .ok (.tool (some "y")) else .ok (.final []))
            (fun _ _ => .ok ()) false 100).executed := by
  decide

/-- **C5, amended.** Repetition control of the decision loop:
(1) a tool request whose consecutive count reached 5 (the circuit
breaker) is itself never executed; (2) five consecutive requests of the
same (trimmed) tool name inject a `circuit_breaker` turn into history;
(3) three consecutive requests inject a `repetition_warning` turn (or a
`circuit_breaker` when the count was already at 5); (4) the breaker never
raises or ends the loop by itself — whenever some in-budget decision is a
valid final reply, the loop returns normally. -/
theorem c5_amended_repetition_and_breaker
    (decide : Nat → Except String LoopDecision)
    (exec : Nat → String → Except String Unit)
    (sink : Bool) (maxTurns : Nat) :
    (∀ t n, HistEntry.circuitBreaker t n
          ∈ (runAgentLoop decide exec sink maxTurns).history →
        (t, n) ∉ (runAgentLoop decide exec sink maxTurns).executed)
    ∧ (∀ t st name, loopStateAt decide exec sink maxTurns t = some st →
        (∀ k, k < 5 → ∃ r, decide (t + k) = .ok (.tool (some r)) ∧ pyStrip r = name) →
        t + 5 ≤ maxTurns →
        HistEntry.circuitBreaker (t + 5) name
          ∈ (runAgentLoop decide exec sink maxTurns).history)
    ∧ (∀ t st name, loopStateAt decide exec sink maxTurns t = some st →
        (∀ k, k < 3 → ∃ r, decide (t + k) = .ok (.tool (some r)) ∧ pyStrip r = name) →
        t + 3 ≤ maxTurns →
        (HistEntry.repetitionWarning (t + 3) name
            ∈ (runAgentLoop decide exec sink maxTurns).history
          ∨ HistEntry.circuitBreaker (t + 3) name
            ∈ (runAgentLoop decide exec sink maxTurns).history))
    ∧ (∀ t, (∀ k, k < t → ∃ d, decide k = .ok d) → t < maxTurns →
        decide t = .ok (.final []) →
        ∃ n, (runAgentLoop decide exec sink maxTurns).result = .ok n) := by
  refine ⟨?_, ?_, ?_, ?_⟩
  · intro t n
    unfold runAgentLoop
    exact runLoopAux_breaker_excl maxTurns 0 _ (by simp) (by simp) (by simp) t n
  · intro t st name hst hreq hbound
    obtain ⟨st4, hst4, hlast4, hcount4⟩ := consecutive_count_ge name 4 t st
      (by omega) hst (fun k hk => hreq k (by omega)) (by omega)
    obtain ⟨r, hr, hrs⟩ := hreq 4 (by omega)
    obtain ⟨st5, hst5, -, hcount5, hbrk5, -⟩ :=
      loopStateAt_tool_step hst4 (by omega) hr
    have hc5 : 5 ≤ st5.count := by
      rw [hcount5, hrs, hlast4, if_pos rfl]
      omega
    have hmem := hbrk5 hc5
    rw [hrs] at hmem
    have hidx : t + 4 + 1 = t + 5 := by omega
    rw [hidx] at hmem
    obtain ⟨-, hrun⟩ := loopStateAt_run (t + 5) st5 (by rw [← hidx]; exact hst5)
    rw [hrun]
    obtain ⟨hpre, -⟩ := runLoopAux_extends (maxTurns - (t + 5)) (t + 5) st5
    exact hpre.sublist.subset hmem
  · intro t st name hst hreq hbound
    obtain ⟨st2, hst2, hlast2, hcount2⟩ := consecutive_count_ge name 2 t st
      (by omega) hst (fun k hk => hreq k (by omega)) (by omega)
    obtain ⟨r, hr, hrs⟩ := hreq 2 (by omega)
    obtain ⟨st3, hst3, -, hcount3, hbrk3, hwarn3⟩ :=
      loopStateAt_tool_step hst2 (by omega) hr
    have hc3 : 3 ≤ st3.count := by
      rw [hcount3, hrs, hlast2, if_pos rfl]
      omega
    have hidx : t + 2 + 1 = t + 3 := by omega
    obtain ⟨-, hrun⟩ := loopStateAt_run (t + 3) st3 (by rw [← hidx]; exact hst3)
    obtain ⟨hpre, -⟩ := runLoopAux_extends (maxTurns - (t + 3)) (t + 3) st3
    by_cases h5 : 5 ≤ st3.count
    · right
      have hmem := hbrk3 h5
      rw [hrs, hidx] at hmem
      rw [hrun]
      exact hpre.sublist.subset hmem
    · left
      have hmem := hwarn3 hc3 (by omega)
      rw [hrs, hidx] at hmem
      rw [hrun]
      exact hpre.sublist.subset hmem
  · intro t hok htm hfin
    unfold runAgentLoop
    exact runLoopAux_final_ok t hok htm hfin maxTurns 0 _ (by omega) (by omega)

/-- **C5, witness.** Five consecutive `x` requests then a valid final:
the breaker entry appears at turn 5 and the loop still returns ok. -/
theorem c5_amended_repetition_and_breaker_witness :
    HistEntry.circuitBreaker 5 "x"
        ∈ (runAgentLoop
            (fun t => if t < 5 then .ok (.tool (some "x")) else .ok (.final []))
            (fun _ _ => .ok ()) false 100).history
    ∧ ∃ n, (runAgentLoop
            (fun t => if t < 5 then .ok (.tool (some "x")) else .ok (.final []))
            (fun _ _ => .ok ()) false 100).result = .ok n := by
  have h := c5_amended_repetition_and_breaker
    (fun t => if t < 5 then .ok (.tool (some "x")) else .ok (.final []))
    (fun _ _ => .ok ()) false 100
  constructor
  · refine h.2.1 0 ⟨none, 0, [], []⟩ "x" rfl ?_ (by omega)
    intro k hk
    exact ⟨"x", by simp [hk], by decide⟩
  · exact h.2.2.2 5 (fun k hk => ⟨.tool (some "x"), by simp [hk]⟩)
      (by omega) (by rw [if_neg (by omega)])

/-! ## Supporting lemmas: event streaming (C6) -/

theorem collectNew_cursor_le (c : Int) (l : List Int) : c ≤ (collectNew c l).2 := by
  induction l generalizing c with
  | nil => simp [collectNew]
  | cons s rest ih =>
    unfold collectNew
    by_cases h : c < s
    · rw [if_pos h]
      dsimp only
      have := ih (max c s)
      have hm : c ≤ max c s := le_max_left _ _
      omega
    · rw [if_neg h]
      exact ih c

theorem collectNew_cursor_ge (c : Int) (l : List Int) :
    ∀ s ∈ l, s ≤ (collectNew c l).2 := by
  induction l generalizing c with
  | nil => simp
  | cons s rest ih =>
    intro x hx
    unfold collectNew
    rcases List.mem_cons.mp hx with rfl | hx
    · by_cases h : c < x
      · rw [if_pos h]
        dsimp only
        have := collectNew_cursor_le (max c x) rest
        have hm : x ≤ max c x := le_max_right _ _
        omega
      · rw [if_neg h]
        have := collectNew_cursor_le c rest
        omega
    · by_cases h : c < s
      · rw [if_pos h]
        exact ih (max c s) x hx
      · rw [if_neg h]
        exact ih c x hx

theorem collectNew_cursor_cases (c : Int) (l : List Int) :
    (collectNew c l).2 = c ∨ (collectNew c l).2 ∈ l := by
  induction l generalizing c with
  | nil => simp [collectNew]
  | cons s rest ih =>
    unfold collectNew
    by_cases h : c < s
    · rw [if_pos h]
      dsimp only
      rcases ih (max c s) with hm | hm
      · rw [hm]
        right
        have : max c s = s := by omega
        rw [this]
        exact List.mem_cons_self _ _
      · right
        exact List.mem_cons_of_mem _ hm
    · rw [if_neg h]
      rcases ih c with hm | hm
      · exact Or.inl hm
      · exact Or.inr (List.mem_cons_of_mem _ hm)

theorem collectNew_quiet (c : Int) (l : List Int) (h : ∀ s ∈ l, s ≤ c) :
    collectNew c l = ([], c) := by
  induction l with
  | nil => rfl
  | cons s rest ih =>
    unfold collectNew
    have hs : s ≤ c := h s (List.mem_cons_self _ _)
    rw [if_neg (by omega)]
    exact ih fun x hx => h x (List.mem_cons_of_mem _ hx)

theorem collectNew_sorted_filter (c : Int) (l : List Int)
    (hs : l.Pairwise (· < ·)) :
    (collectNew c l).1 = l.filter (fun s => decide (c < s)) := by
  induction l generalizing c with
  | nil => rfl
  | cons s rest ih =>
    have hrest : rest.Pairwise (· < ·) := (List.pairwise_cons.mp hs).2
    have hall : ∀ x ∈ rest, s < x := (List.pairwise_cons.mp hs).1
    unfold collectNew
    by_cases h : c < s
    · rw [if_pos h]
      dsimp only
      rw [List.filter_cons_of_pos (by simpa using h)]
      congr 1
      rw [ih (max c s) hrest]
      apply List.filter_congr
      intro x hx
      have := hall x hx
      simp only [decide_eq_decide]
      omega
    · rw [if_neg h]
      rw [List.filter_cons_of_neg (by simpa using h)]
      exact ih c hrest

theorem collect_step {l pl : List Int} {c c0 : Int}
    (hpre : pl <+: l) (hsorted : l.Pairwise (· < ·))
    (hcov : ∀ s ∈ pl, s ≤ c) (hge : c0 ≤ c) (hmem : c = c0 ∨ c ∈ pl) :
    pl.filter (fun s => decide (c0 < s)) ++ (collectNew c l).1
      = l.filter (fun s => decide (c0 < s)) := by
  obtain ⟨suffix, rfl⟩ := hpre
  rw [collectNew_sorted_filter c _ hsorted]
  rw [List.filter_append, List.filter_append]
  have hcross : ∀ a ∈ pl, ∀ b ∈ suffix, a < b :=
    (List.pairwise_append.mp hsorted).2.2
  have h1 : pl.filter (fun s => decide (c < s)) = [] := by
    rw [List.filter_eq_nil_iff]
    intro a ha
    have := hcov a ha
    simp only [decide_eq_true_eq]
    omega
  have h2 : suffix.filter (fun s => decide (c < s))
      = suffix.filter (fun s => decide (c0 < s)) := by
    apply List.filter_congr
    intro b hb
    simp only [decide_eq_decide]
    constructor
    · intro hlt
      omega
    · intro hlt
      rcases hmem with rfl | hc
      · exact hlt
      · exact (hcross c hc b hb)
  rw [h1, h2]
  simp

theorem streamAux_succ (snap : Nat → StreamSnapshot) (fuel i : Nat) (cursor : Int)
    (settled : Nat) :
    streamAux snap (fuel + 1) i cursor settled =
      (let s := snap i
       let col := collectNew cursor s.logSeqs
       let emitted := col.1.map StreamEvent.log ++ [StreamEvent.state s.status]
       if s.status ∈ terminalStatuses then
         let settled' := if col.1 = [] then settled + 1 else 0
         if settled' ≥ 2 then
           (emitted ++ [StreamEvent.runComplete s.status], some i)
         else
           let rest := streamAux snap fuel (i + 1) col.2 settled'
           (emitted ++ rest.1, rest.2)
       else
         let rest := streamAux snap fuel (i + 1) col.2 0
         (emitted ++ rest.1, rest.2)) := rfl

theorem snap_freeze (snap : Nat → StreamSnapshot)
    (hfreeze : ∀ i, (snap i).status ∈ terminalStatuses → snap (i + 1) = snap i)
    (K : Nat) (hK : (snap K).status ∈ terminalStatuses) :
    ∀ m, K ≤ m → snap m = snap K := by
  intro m
  induction m with
  | zero =>
    intro hm
    have : K = 0 := by omega
    rw [this]
  | succ m ih =>
    intro hm
    rcases Nat.lt_or_ge K (m + 1) with hlt | hge
    · have hsm : snap m = snap K := ih (by omega)
      have : (snap m).status ∈ terminalStatuses := by rw [hsm]; exact hK
      rw [hfreeze m this, hsm]
    · have : K = m + 1 := by omega
      rw [this]

theorem mapLog_filterMap (xs : List Int) :
    (xs.map StreamEvent.log).filterMap StreamEvent.logSeq = xs := by
  induction xs with
  | nil => rfl
  | cons x xs ih => simp [StreamEvent.logSeq, ih]

theorem collectNew_nil_cursor (c : Int) (l : List Int)
    (h : (collectNew c l).1 = []) : (collectNew c l).2 = c := by
  induction l generalizing c with
  | nil => rfl
  | cons s rest ih =>
    unfold collectNew at h ⊢
    by_cases hc : c < s
    · rw [if_pos hc] at h
      dsimp only at h
      cases h
    · rw [if_neg hc] at h ⊢
      exact ih c h

theorem mapLog_countP (xs : List Int) :
    (xs.map StreamEvent.log).countP StreamEvent.isComplete = 0 := by
  induction xs with
  | nil => rfl
  | cons x xs ih => simp [StreamEvent.isComplete, ih]

theorem streamAux_tail (snap : Nat → StreamSnapshot) (lastSeq : Int)
    (hsorted : ∀ i, (snap i).logSeqs.Pairwise (· < ·))
    (hfreeze : ∀ i, (snap i).status ∈ terminalStatuses → snap (i + 1) = snap i)
    (i : Nat) (hterm_i : (snap i).status ∈ terminalStatuses)
    (c : Int) (settled : Nat) (pl : List Int) (fuel : Nat)
    (hfuel : 3 ≤ fuel)
    (hpre : pl <+: (snap i).logSeqs) (hcov : ∀ s ∈ pl, s ≤ c)
    (hge : lastSeq ≤ c) (hmem : c = lastSeq ∨ c ∈ pl) :
    ∃ K evts, i ≤ K ∧ K ≤ i + 2
      ∧ streamAux snap fuel i c settled = (evts, some K)
      ∧ (snap K).status ∈ terminalStatuses
      ∧ pl.filter (fun s => decide (lastSeq < s))
            ++ evts.filterMap StreamEvent.logSeq
          = (snap K).logSeqs.filter (fun s => decide (lastSeq < s))
      ∧ evts.countP StreamEvent.isComplete = 1 := by
  obtain ⟨f, rfl⟩ : ∃ f, fuel = f + 3 := ⟨fuel - 3, by omega⟩
  have hsnap : ∀ m, i ≤ m → snap m = snap i :=
    snap_freeze snap hfreeze i hterm_i
  have hstep := @collect_step (snap i).logSeqs pl c lastSeq hpre (hsorted i) hcov hge hmem
  have hcov1 : ∀ s ∈ (snap i).logSeqs, s ≤ (collectNew c (snap i).logSeqs).2 :=
    collectNew_cursor_ge c _
  have hquiet1 : collectNew (collectNew c (snap i).logSeqs).2 (snap i).logSeqs
      = ([], (collectNew c (snap i).logSeqs).2) :=
    collectNew_quiet _ _ hcov1
  by_cases hA : (collectNew c (snap i).logSeqs).1 = [] ∧ 1 ≤ settled
  · -- quiet poll with a previous quiet poll: completes immediately at i
    refine ⟨i, [StreamEvent.state (snap i).status,
        StreamEvent.runComplete (snap i).status],
      le_refl i, by omega, ?_, hterm_i, ?_, ?_⟩
    · rw [show f + 3 = f + 2 + 1 by omega, streamAux_succ]
      dsimp only
      rw [if_pos hterm_i, if_pos hA.1, if_pos (show settled + 1 ≥ 2 by omega), hA.1]
      simp
    · simp only [List.filterMap_cons, StreamEvent.logSeq, List.filterMap_nil,
        List.append_nil]
      rw [hA.1, List.append_nil] at hstep
      exact hstep
    · simp [List.countP_cons, StreamEvent.isComplete]
  · by_cases hA1 : (collectNew c (snap i).logSeqs).1 = []
    · -- quiet poll with no previous quiet poll: completes at i + 1
      have hs0 : settled = 0 := by
        rcases Nat.eq_zero_or_pos settled with h0 | h1
        · exact h0
        · exact absurd ⟨hA1, h1⟩ hA
      subst hs0
      have hc2 : (collectNew c (snap i).logSeqs).2 = c := collectNew_nil_cursor _ _ hA1
      refine ⟨i + 1, [StreamEvent.state (snap i).status,
          StreamEvent.state (snap i).status,
          StreamEvent.runComplete (snap i).status],
        by omega, by omega, ?_,
        by rw [hsnap (i + 1) (by omega)]; exact hterm_i, ?_, ?_⟩
      · rw [show f + 3 = f + 2 + 1 by omega, streamAux_succ]
        dsimp only
        rw [if_pos hterm_i, if_pos hA1, if_neg (show ¬ (0 + 1 ≥ 2) by omega)]
        rw [hc2, show f + 2 = f + 1 + 1 by omega, streamAux_succ]
        dsimp only
        rw [hsnap (i + 1) (by omega)]
        rw [if_pos hterm_i, if_pos hA1, if_pos (show 0 + 1 + 1 ≥ 2 by omega), hA1]
        simp
      · simp only [List.filterMap_cons, StreamEvent.logSeq, List.filterMap_nil,
          List.append_nil]
        rw [hA1, List.append_nil] at hstep
        rw [hsnap (i + 1) (by omega)]
        exact hstep
      · simp [List.countP_cons, StreamEvent.isComplete]
    · -- fresh events on this poll: two quiet polls follow, completing at i + 2
      refine ⟨i + 2, (collectNew c (snap i).logSeqs).1.map StreamEvent.log
          ++ [StreamEvent.state (snap i).status,
              StreamEvent.state (snap i).status,
              StreamEvent.state (snap i).status,
              StreamEvent.runComplete (snap i).status],
        by omega, by omega, ?_,
        by rw [hsnap (i + 2) (by omega)]; exact hterm_i, ?_, ?_⟩
      · rw [show f + 3 = f + 2 + 1 by omega, streamAux_succ]
        dsimp only
        rw [if_pos hterm_i, if_neg hA1, if_neg (show ¬ ((0 : Nat) ≥ 2) by omega)]
        rw [show f + 2 = f + 1 + 1 by omega, streamAux_succ]
        dsimp only
        rw [hsnap (i + 1) (by omega), hquiet1]
        dsimp only
        rw [if_pos hterm_i, if_pos rfl, if_neg (show ¬ (0 + 1 ≥ 2) by omega)]
        dsimp only
        rw [show f + 1 = f + 0 + 1 by omega, streamAux_succ]
        dsimp only
        rw [hsnap (i + 2) (by omega), hquiet1]
        dsimp only
        rw [if_pos hterm_i, if_pos rfl, if_pos (show 0 + 1 + 1 ≥ 2 by omega)]
        simp
      · simp only [List.filterMap_append, mapLog_filterMap, List.filterMap_cons,
          StreamEvent.logSeq, List.filterMap_nil, List.append_nil]
        rw [hsnap (i + 2) (by omega)]
        exact hstep
      · simp [List.countP_append, List.countP_cons, StreamEvent.isComplete,
          mapLog_countP]

theorem streamAux_climb (snap : Nat → StreamSnapshot) (lastSeq : Int)
    (hmono : ∀ i, (snap i).logSeqs <+: (snap (i + 1)).logSeqs)
    (hsorted : ∀ i, (snap i).logSeqs.Pairwise (· < ·))
    (hfreeze : ∀ i, (snap i).status ∈ terminalStatuses → snap (i + 1) = snap i)
    (N : Nat) (hN : (snap N).status ∈ terminalStatuses) :
    ∀ (fuel i : Nat) (c : Int) (settled : Nat) (pl : List Int),
      N + 3 ≤ i + fuel → i ≤ N →
      pl <+: (snap i).logSeqs → (∀ s ∈ pl, s ≤ c) → lastSeq ≤ c →
      (c = lastSeq ∨ c ∈ pl) →
      ∃ K evts, i ≤ K ∧ K ≤ N + 2
        ∧ streamAux snap fuel i c settled = (evts, some K)
        ∧ (snap K).status ∈ terminalStatuses
        ∧ pl.filter (fun s => decide (lastSeq < s))
              ++ evts.filterMap StreamEvent.logSeq
            = (snap K).logSeqs.filter (fun s => decide (lastSeq < s))
        ∧ evts.countP StreamEvent.isComplete = 1 := by
  intro fuel
  induction fuel with
  | zero =>
    intro i c settled pl hfuel hiN _ _ _ _
    omega
  | succ f ih =>
    intro i c settled pl hfuel hiN hpre hcov hge hmem
    by_cases hterm : (snap i).status ∈ terminalStatuses
    · obtain ⟨K, evts, hK1, hK2, hrun, hKt, heq, hcnt⟩ :=
        streamAux_tail snap lastSeq hsorted hfreeze i hterm c settled pl (f + 1)
          (by omega) hpre hcov hge hmem
      exact ⟨K, evts, hK1, by omega, hrun, hKt, heq, hcnt⟩
    · have hiltN : i < N := by
        rcases Nat.lt_or_ge i N with h | h
        · exact h
        · exact absurd (by rw [show i = N by omega]; exact hN) hterm
      have hstep := @collect_step (snap i).logSeqs pl c lastSeq hpre (hsorted i)
        hcov hge hmem
      have hcov' : ∀ s ∈ (snap i).logSeqs, s ≤ (collectNew c (snap i).logSeqs).2 :=
        collectNew_cursor_ge c _
      have hge' : lastSeq ≤ (collectNew c (snap i).logSeqs).2 :=
        le_trans hge (collectNew_cursor_le c _)
      have hmem' : (collectNew c (snap i).logSeqs).2 = lastSeq
          ∨ (collectNew c (snap i).logSeqs).2 ∈ (snap i).logSeqs := by
        rcases collectNew_cursor_cases c (snap i).logSeqs with hc | hc
        · rcases hmem with hm | hm
          · exact Or.inl (hc.trans hm)
          · exact Or.inr (by rw [hc]; exact hpre.subset hm)
        · exact Or.inr hc
      obtain ⟨K, evts, hK1, hK2, hrun, hKt, heq, hcnt⟩ :=
        ih (i + 1) (collectNew c (snap i).logSeqs).2 0 (snap i).logSeqs
          (by omega) (by omega) (hmono i) hcov' hge' hmem'
      refine ⟨K, (collectNew c (snap i).logSeqs).1.map StreamEvent.log
          ++ [StreamEvent.state (snap i).status] ++ evts,
        by omega, hK2, ?_, hKt, ?_, ?_⟩
      · rw [streamAux_succ]
        dsimp only
        rw [if_neg hterm]
        rw [hrun]
      · simp only [List.filterMap_append, mapLog_filterMap, List.filterMap_cons,
          StreamEvent.logSeq, List.filterMap_nil, List.append_nil]
        rw [← List.append_assoc, hstep]
        exact heq
      · simp only [List.countP_append, mapLog_countP, List.countP_cons,
          List.countP_nil, StreamEvent.isComplete]
        simpa using hcnt

theorem streamAux_complete_sound (snap : Nat → StreamSnapshot) :
    ∀ (fuel i : Nat) (c : Int) (settled : Nat) (evts : List StreamEvent) (K : Nat),
      streamAux snap fuel i c settled = (evts, some K) →
      (∃ pre s1 s2, s1 ∈ terminalStatuses ∧ s2 ∈ terminalStatuses ∧
          evts = pre ++ [StreamEvent.state s1, StreamEvent.state s2,
                         StreamEvent.runComplete s2])
      ∨ (1 ≤ settled ∧ ∃ s2, s2 ∈ terminalStatuses ∧
          evts = [StreamEvent.state s2, StreamEvent.runComplete s2]) := by
  intro fuel
  induction fuel with
  | zero =>
    intro i c settled evts K h
    simp [streamAux] at h
  | succ f ih =>
    intro i c settled evts K h
    rw [streamAux_succ] at h
    dsimp only at h
    by_cases hterm : (snap i).status ∈ terminalStatuses
    · rw [if_pos hterm] at h
      by_cases hcol : (collectNew c (snap i).logSeqs).1 = []
      · rw [if_pos hcol] at h
        by_cases hset : settled + 1 ≥ 2
        · rw [if_pos hset, hcol] at h
          have hev : evts = [StreamEvent.state (snap i).status,
              StreamEvent.runComplete (snap i).status] := by
            have := congrArg Prod.fst h
            simpa using this.symm
          exact Or.inr ⟨by omega, (snap i).status, hterm, hev⟩
        · rw [if_neg hset] at h
          have h2 : (streamAux snap f (i + 1) (collectNew c (snap i).logSeqs).2
              (settled + 1)).2 = some K := by
            have := congrArg Prod.snd h
            simpa using this
          have hrest : streamAux snap f (i + 1) (collectNew c (snap i).logSeqs).2
              (settled + 1)
              = ((streamAux snap f (i + 1) (collectNew c (snap i).logSeqs).2
                  (settled + 1)).1, some K) := by
            rw [← h2]
          have h1 : evts = ((collectNew c (snap i).logSeqs).1.map StreamEvent.log
              ++ [StreamEvent.state (snap i).status])
              ++ (streamAux snap f (i + 1) (collectNew c (snap i).logSeqs).2
                  (settled + 1)).1 := by
            have := congrArg Prod.fst h
            simpa using this.symm
          rcases ih (i + 1) _ _ _ K hrest with hL | hR
          · obtain ⟨pre, s1, s2, ht1, ht2, hev⟩ := hL
            refine Or.inl ⟨((collectNew c (snap i).logSeqs).1.map StreamEvent.log
                ++ [StreamEvent.state (snap i).status]) ++ pre, s1, s2, ht1, ht2, ?_⟩
            simp [h1, hev]
          · obtain ⟨hs, s2, ht2, hev⟩ := hR
            refine Or.inl ⟨[], (snap i).status, s2, hterm, ht2, ?_⟩
            simp [h1, hev, hcol]
      · rw [if_neg hcol, if_neg (show ¬ ((0 : Nat) ≥ 2) by omega)] at h
        have h2 : (streamAux snap f (i + 1) (collectNew c (snap i).logSeqs).2 0).2
            = some K := by
          have := congrArg Prod.snd h
          simpa using this
        have hrest : streamAux snap f (i + 1) (collectNew c (snap i).logSeqs).2 0
            = ((streamAux snap f (i + 1) (collectNew c (snap i).logSeqs).2 0).1,
               some K) := by
          rw [← h2]
        have h1 : evts = ((collectNew c (snap i).logSeqs).1.map StreamEvent.log
            ++ [StreamEvent.state (snap i).status])
            ++ (streamAux snap f (i + 1) (collectNew c (snap i).logSeqs).2 0).1 := by
          have := congrArg Prod.fst h
          simpa using this.symm
        rcases ih (i + 1) _ _ _ K hrest with hL | hR
        · obtain ⟨pre, s1, s2, ht1, ht2, hev⟩ := hL
          refine Or.inl ⟨((collectNew c (snap i).logSeqs).1.map StreamEvent.log
              ++ [StreamEvent.state (snap i).status]) ++ pre, s1, s2, ht1, ht2, ?_⟩
          simp [h1, hev]
        · exact absurd hR.1 (by omega)
    · rw [if_neg hterm] at h
      have h2 : (streamAux snap f (i + 1) (collectNew c (snap i).logSeqs).2 0).2
          = some K := by
        have := congrArg Prod.snd h
        simpa using this
      have hrest : streamAux snap f (i + 1) (collectNew c (snap i).logSeqs).2 0
          = ((streamAux snap f (i + 1) (collectNew c (snap i).logSeqs).2 0).1,
             some K) := by
        rw [← h2]
      have h1 : evts = ((collectNew c (snap i).logSeqs).1.map StreamEvent.log
          ++ [StreamEvent.state (snap i).status])
          ++ (streamAux snap f (i + 1) (collectNew c (snap i).logSeqs).2 0).1 := by
        have := congrArg Prod.fst h
        simpa using this.symm
      rcases ih (i + 1) _ _ _ K hrest with hL | hR
      · obtain ⟨pre, s1, s2, ht1, ht2, hev⟩ := hL
        refine Or.inl ⟨((collectNew c (snap i).logSeqs).1.map StreamEvent.log
            ++ [StreamEvent.state (snap i).status]) ++ pre, s1, s2, ht1, ht2, ?_⟩
        simp [h1, hev]
      · exact absurd hR.1 (by omega)

/-- C6: for every run stream started at any cursor, each log event with seq
greater than the cursor is yielded exactly once (the yielded seqs are exactly
the filter of the final snapshot's log seqs) in strictly increasing seq order,
the stream emits exactly one run:complete event and closes, and it does so
precisely when the run status is terminal and two consecutive poll iterations
observed no new log events.  Hypotheses: the log is append-only (`hmono`),
seqs are strictly increasing (`hsorted`), a terminal run no longer changes
(`hfreeze`), the run is terminal by poll `N` (`hN`), and the poll budget
covers `N + 3` iterations. -/
theorem c6_stream_exactly_once_and_completes
    (snap : Nat → StreamSnapshot) (lastSeq : Int)
    (hmono : ∀ i, (snap i).logSeqs <+: (snap (i + 1)).logSeqs)
    (hsorted : ∀ i, (snap i).logSeqs.Pairwise (· < ·))
    (hfreeze : ∀ i, (snap i).status ∈ terminalStatuses → snap (i + 1) = snap i)
    (N : Nat) (hN : (snap N).status ∈ terminalStatuses)
    (fuel : Nat) (hfuel : N + 3 ≤ fuel) :
    ∃ K evts, K ≤ N + 2
      ∧ streamRun snap lastSeq fuel = (evts, some K)
      ∧ (snap K).status ∈ terminalStatuses
      ∧ evts.filterMap StreamEvent.logSeq
          = (snap K).logSeqs.filter (fun s => decide (lastSeq < s))
      ∧ (evts.filterMap StreamEvent.logSeq).Pairwise (· < ·)
      ∧ evts.countP StreamEvent.isComplete = 1
      ∧ ∃ pre s1 s2, s1 ∈ terminalStatuses ∧ s2 ∈ terminalStatuses ∧
          evts = pre ++ [StreamEvent.state s1, StreamEvent.state s2,
                         StreamEvent.runComplete s2] := by
  obtain ⟨K, evts, hK1, hK2, hrun, hKt, heq, hcnt⟩ :=
    streamAux_climb snap lastSeq hmono hsorted hfreeze N hN fuel 0 lastSeq 0 []
      (by omega) (by omega) List.nil_prefix (by simp) (le_refl _) (Or.inl rfl)
  have heq' : evts.filterMap StreamEvent.logSeq
      = (snap K).logSeqs.filter (fun s => decide (lastSeq < s)) := by
    simpa using heq
  have hsort : (evts.filterMap StreamEvent.logSeq).Pairwise (· < ·) := by
    rw [heq']
    exact (hsorted K).filter _
  rcases streamAux_complete_sound snap fuel 0 lastSeq 0 evts K hrun with hL | hR
  · exact ⟨K, evts, hK2, hrun, hKt, heq', hsort, hcnt, hL⟩
  · exact absurd hR.1 (by omega)

theorem c6_stream_exactly_once_and_completes_witness :
    ∃ K evts, K ≤ 0 + 2
      ∧ streamRun (fun _ => ⟨RunStatus.success, [(1 : Int), 2]⟩) (-1) 3
          = (evts, some K)
      ∧ RunStatus.success ∈ terminalStatuses
      ∧ evts.filterMap StreamEvent.logSeq
          = List.filter (fun s => decide ((-1 : Int) < s)) [(1 : Int), 2]
      ∧ (evts.filterMap StreamEvent.logSeq).Pairwise (· < ·)
      ∧ evts.countP StreamEvent.isComplete = 1
      ∧ ∃ pre s1 s2, s1 ∈ terminalStatuses ∧ s2 ∈ terminalStatuses ∧
          evts = pre ++ [StreamEvent.state s1, StreamEvent.state s2,
                         StreamEvent.runComplete s2] := by
  have hs : List.Pairwise (fun a b : Int => a < b) [(1 : Int), 2] := by decide
  exact c6_stream_exactly_once_and_completes
    (fun _ => ⟨RunStatus.success, [(1 : Int), 2]⟩) (-1)
    (fun _ => List.prefix_refl _) (fun _ => hs) (fun _ _ => rfl)
    0 (by decide) 3 (by omega)

end NinthSeat
